import Mathlib

/-!
# RUN_LOG_MONITOR: a shallow embedding of `main.go`

The program keeps a TCP connection to a line-oriented device, stamps every
received line with the local time and appends it to a per-day log file,
sweeping old log files each time a log file is opened.

Modelling conventions.

* A Go `string` is a list of characters (`GoString`), one character per byte.
* A `time.Time` is the record of what the program observes of it: the instant
  (for `Before`) and the local civil fields (for `Day` and `Format`). What
  `AddDate` returns is the business of the local zone (`Zone`), which the
  environment supplies.
* `filepath.Join(dir, base)` for a base name without separators is kept as the
  pair of its components (`Path`).
* The log directory is the list of its entries. `filepath.Glob` reads the
  directory path as part of its pattern and drops listing errors: whether it
  comes to list an entry of the log directory is decided by the path
  (`hasMeta`) and by the file system (`Faults`). The environment (clock,
  cancellation signal, dial results, file-system faults) is a record of
  oracles indexed by the number of earlier uses. The file system stamps a
  file it creates or writes with the next reading of the same clock.
* `os.MkdirAll` (line 63), whose error the program drops, is not modelled: a
  missing directory shows as a failing `os.OpenFile`.
* `runTelnetMonitor` is a step function over program locations; `run` iterates
  it.
-/

namespace RunLogMonitor

/-! ## Strings and number formatting -/

/-- Go strings, as the list of their bytes. -/
abbrev GoString := List Char

/-- The decimal digit character of `d` (for `d < 10`). -/
def digitChar (d : Nat) : Char := Char.ofNat (48 + d)

/-- Digits of `n`, most significant first, pushed in front of `acc`; the first
argument bounds the number of digits. -/
def decimalCore : Nat → Nat → List Char → List Char
  | 0, _, acc => acc
  | fuel + 1, n, acc =>
    if n / 10 = 0 then digitChar (n % 10) :: acc
    else decimalCore fuel (n / 10) (digitChar (n % 10) :: acc)

/-- Decimal representation of a natural number (`"0"` for zero). -/
def decimal (n : Nat) : GoString := decimalCore (n + 1) n []

/-- Go `time.appendInt`: the decimal form of `x`, zero-padded on the left to
`width` digits, after a minus sign when `x` is negative. -/
def appendInt (x : Int) (width : Nat) : GoString :=
  (if x < 0 then ['-'] else []) ++
    (List.replicate (width - (decimal x.natAbs).length) '0' ++ decimal x.natAbs)

/-! ## Time -/

/-- What the program observes of a `time.Time`: the instant in nanoseconds
since the Unix epoch and the civil fields of its local time. -/
structure Time where
  unixNano : Int
  year : Int
  month : Nat
  day : Nat
  hour : Nat
  minute : Nat
  second : Nat
deriving DecidableEq, Repr

/-- Civil fields in the ranges `Time.Date` and `Time.Clock` return. -/
def Time.Valid (t : Time) : Prop :=
  1 ≤ t.month ∧ t.month ≤ 12 ∧ 1 ≤ t.day ∧ t.day ≤ 31 ∧
    t.hour < 24 ∧ t.minute < 60 ∧ t.second < 60

instance (t : Time) : Decidable t.Valid := by
  unfold Time.Valid; infer_instance

/-- Go `t.Day()`: the day of the month. -/
def Time.Day (t : Time) : Nat := t.day

/-- The local calendar date of `t`, as `t.Date()` returns it. -/
def Time.Date (t : Time) : Int × Nat × Nat := (t.year, t.month, t.day)

/-- Go `t.Format("20060102")`. -/
def formatDate (t : Time) : GoString :=
  appendInt t.year 4 ++ appendInt t.month 2 ++ appendInt t.day 2

/-- Go `t.Format("2006-01-02 15:04:05")`. -/
def formatStamp (t : Time) : GoString :=
  appendInt t.year 4 ++ '-' :: appendInt t.month 2 ++ '-' :: appendInt t.day 2 ++
    ' ' :: appendInt t.hour 2 ++ ':' :: appendInt t.minute 2 ++ ':' :: appendInt t.second 2

/-- Go `-x` on an `int` of 64 bits: the negation wraps at the least value. -/
def negInt (x : Int) : Int :=
  (-x + 9223372036854775808) % 18446744073709551616 - 9223372036854775808

/-- The local time zone, as far as the program uses it: `addDays t days` is
the instant of `t.AddDate(0, 0, days)`, which keeps the wall clock of `t`,
moves its date by `days` and resolves the result in the zone. -/
structure Zone where
  addDays : Time → Int → Int

/-- Nanoseconds in a day of 24 hours. -/
def nanosPerDay : Int := 86400 * 1000000000

/-- The zone UTC, which has no clock change: every day lasts 24 hours. The
sample inputs use it with day counts from -7 to 0, far from the ends of the
range of `time.Time`. -/
def utc : Zone := { addDays := fun t days => t.unixNano + days * nanosPerDay }

/-! ## File names -/

/-- The result of `filepath.Join(dir, base)` for a base name without
separators: the entry `base` of directory `dir`. -/
structure Path where
  dir : GoString
  base : GoString
deriving DecidableEq, Repr

/-- Source `logFileName` (lines 42-44). -/
def logFileName (dir : GoString) (t : Time) : Path :=
  { dir := dir, base := "runlog_".toList ++ formatDate t ++ ".log".toList }

/-! ## The log directory and the retention sweep -/

/-- One directory entry: its name and its modification time (an instant in
nanoseconds). -/
structure FileInfo where
  name : GoString
  modTime : Int
deriving DecidableEq, Repr

/-- The entries of the log directory. -/
abbrev Dir := List FileInfo

/-- Go `filepath.Match("runlog_*.log", name)`: the literal chunk `runlog_`, any
run of non-separator characters, the literal chunk `.log`. -/
def matchRunlog (name : GoString) : Bool :=
  "runlog_".toList.isPrefixOf name && ".log".toList.isSuffixOf (name.drop 7) &&
    !(name.contains '/')

/-- What the file system answers during one sweep. `unlisted f`: the listing
of the log directory does not return the name `f`, because the directory
cannot be opened or read (then no name is returned) or because the read stops
early. `reachesDir`: for a directory path that holds pattern characters,
whether the expansion of that path as a pattern includes the log directory
itself. `statErr f`, `removeErr f`: Stat, Remove fail on `f`. -/
structure Faults where
  unlisted : GoString → Bool
  reachesDir : Bool
  statErr : GoString → Bool
  removeErr : GoString → Bool

/-- A file system that reports no failure. -/
def noFaults : Faults :=
  { unlisted := fun _ => false, reachesDir := true, statErr := fun _ => false,
    removeErr := fun _ => false }

/-- A log directory that cannot be read. -/
def unreadable : Faults := { noFaults with unlisted := fun _ => true }

/-- Go `filepath.hasMeta` (on Unix): the path holds one of `*`, `?`, `[`, `\`,
which `filepath.Glob` reads as pattern syntax. -/
def hasMeta (path : GoString) : Bool :=
  path.any (fun c => c = '*' || c = '?' || c = '[' || c = '\\')

/-- Whether `filepath.Glob(filepath.Join(dirPath, "runlog_*.log"))` comes to
test the entry `f` of the log directory against the pattern. A directory path
without pattern characters names the log directory itself; a path with
pattern characters is expanded by Glob, and the expansion may or may not
include the log directory. In a directory that is reached, Glob tests the
names the listing returns, and drops the error of a listing that fails. -/
def lists (flt : Faults) (dirPath : GoString) (f : GoString) : Bool :=
  (!hasMeta dirPath || flt.reachesDir) && !flt.unlisted f

/-- Go `filepath.Glob(filepath.Join(dirPath, "runlog_*.log"))`, as far as the
log directory goes: the names of its entries that are listed and match. Files
the pattern reaches in other directories are outside the model. -/
def glob (flt : Faults) (dirPath : GoString) (d : Dir) : List GoString :=
  (d.filter (fun e => lists flt dirPath e.name && matchRunlog e.name)).map FileInfo.name

/-- Go `os.Stat(f)` on the listing: the entry named `f`, if any. -/
def stat (d : Dir) (f : GoString) : Option FileInfo :=
  d.find? (fun e => e.name = f)

/-- Go `os.Remove(f)` on the listing. -/
def remove (d : Dir) (f : GoString) : Dir :=
  d.filter (fun e => e.name ≠ f)

/-- The body of the loop of `cleanOldLogs` (lines 51-57) for the file `f`. -/
def sweepOne (flt : Faults) (cutoff : Int) (d : Dir) (f : GoString) : Dir :=
  if flt.statErr f then d
  else match stat d f with
    | none => d
    | some info =>
      if info.modTime < cutoff then
        (if flt.removeErr f then d else remove d f)
      else d

/-- Source `cleanOldLogs` (lines 46-59), called with `dirPath` and `keepDays`;
`now` is the reading of `time.Now()` on line 48, `zone` the local zone and `d`
the listing of the log directory. -/
def cleanOldLogs (zone : Zone) (flt : Faults) (dirPath : GoString) (now : Time)
    (keepDays : Int) (d : Dir) : Dir :=
  let files := glob flt dirPath d
  let cutoff := zone.addDays now (negInt keepDays)
  files.foldl (sweepOne flt cutoff) d

/-! ## The line reader -/

/-- The errors `conn.Read` can end a stream with, as line 115 tells them apart:
`io.EOF`, an error whose text contains "use of closed", anything else. -/
inductive ReadErr where
  | eof
  | closed
  | other
deriving DecidableEq, Repr

/-- A `bufio.Reader` over a connection: the bytes received and not yet
returned, the chunks the coming `conn.Read` calls deliver (a TCP read that
succeeds delivers at least one byte), and the error the connection reports
after them. -/
structure Reader where
  buf : GoString
  chunks : List GoString
  err : ReadErr
deriving DecidableEq, Repr

/-- What `reader.ReadString` returns: a line ending in the delimiter and no
error, or the bytes read before an error together with that error. -/
inductive ReadResult where
  | line (s : GoString)
  | fail (rest : GoString) (e : ReadErr)
deriving DecidableEq, Repr

/-- Split at the first line feed: the text up to and including it, and what
follows; `none` when there is no line feed. -/
def splitLF : GoString → Option (GoString × GoString)
  | [] => none
  | c :: cs =>
    if c = '\n' then some (['\n'], cs)
    else match splitLF cs with
      | some (l, r) => some (c :: l, r)
      | none => none

/-- The loop of `bufio.Reader.ReadString` with delimiter line feed: return the
buffered bytes through the first line feed, otherwise read one more chunk and
search again; when the connection fails, return what was read and the error. -/
def readFrom (err : ReadErr) : GoString → List GoString → ReadResult × Reader
  | buf, [] =>
    match splitLF buf with
    | some (l, r) => (.line l, { buf := r, chunks := [], err := err })
    | none => (.fail buf err, { buf := [], chunks := [], err := err })
  | buf, c :: cs =>
    match splitLF buf with
    | some (l, r) => (.line l, { buf := r, chunks := c :: cs, err := err })
    | none => readFrom err (buf ++ c) cs

/-- Source line 113: `reader.ReadString` with delimiter line feed. -/
def readString (rd : Reader) : ReadResult × Reader :=
  readFrom rd.err rd.buf rd.chunks

/-- Membership in the cutset of line 131. -/
def isCRLF (c : Char) : Bool := c = '\r' || c = '\n'

/-- Go `strings.TrimRight(line, "\r\n")` (line 131): drop the longest suffix
made of carriage returns and line feeds. -/
def trimRight (line : GoString) : GoString :=
  (line.reverse.dropWhile isCRLF).reverse

/-- Source line 132: `fmt.Sprintf("[%s] %s\n", now.Format(...), line)`. -/
def formatRecord (now : Time) (line : GoString) : GoString :=
  '[' :: formatStamp now ++ "] ".toList ++ line ++ ['\n']

/-- Lines 131-132 together: the record logged for a received line. -/
def logRecord (now : Time) (line : GoString) : GoString :=
  formatRecord now (trimRight line)

/-! ## The monitor -/

/-- The configuration (source `Config`). -/
structure Config where
  ip : GoString
  port : Int
  dir : GoString
  keepDays : Int

/-- A successful dial: the stream the connection will deliver. -/
structure Conn where
  chunks : List GoString
  err : ReadErr
deriving DecidableEq, Repr

/-- The environment of a run. Each oracle is indexed by the number of earlier
uses: `done k` is what the `k`-th poll of `ctx.Done()` observes, `now k` the
`k`-th reading of the system clock (by `time.Now()` or by the file system
stamping a file), `dial k` the result of the `k`-th `net.DialTimeout` (`none`
for an error), `openErr k` whether the `k`-th `os.OpenFile` fails, and
`faults k` what the file system answers during the `k`-th retention sweep;
`zone` is the local time zone. -/
structure Env where
  zone : Zone
  done : Nat → Bool
  now : Nat → Time
  dial : Nat → Option Conn
  openErr : Nat → Bool
  faults : Nat → Faults

/-- An open file: the ordinal of the `os.OpenFile` call and the path. -/
structure Handle where
  id : Nat
  name : Path
deriving DecidableEq, Repr

/-- Console status lines. -/
inductive Status where
  | connecting
  | connectFailed
  | connected
  | disconnected
  | readError
  | exit
deriving DecidableEq, Repr

/-- Observable actions of the monitor, in program order. -/
inductive Event where
  | status (m : Status)
  | echo (out : GoString)
  | dial (timeoutSeconds : Nat)
  | sleep (seconds : Nat)
  | openFile (h : Handle)
  | closeFile (h : Handle)
  | write (h : Handle) (out : GoString)
  | connClose
deriving DecidableEq, Repr

/-- Program locations of `runTelnetMonitor` at which the environment is
consulted, and the two ways it ends. -/
inductive Loc where
  | loopTop
  | dialing
  | dialBackoff
  | sessionTop (rd : Reader)
  | reading (rd : Reader)
  | sessionBackoff
  | returned
  | panicked
deriving DecidableEq, Repr

/-- The variables of `runTelnetMonitor`, the log directory, the use counts of
the oracles and the actions performed so far. -/
structure State where
  pc : Loc
  logFile : Option Handle
  currentDay : Nat
  dir : Dir
  polls : Nat
  ticks : Nat
  dials : Nat
  opens : Nat
  sweeps : Nat
  events : List Event

/-- The file system stamping the entry `name` at instant `t` (a write). -/
def touch (d : Dir) (name : GoString) (t : Int) : Dir :=
  d.map (fun e => if e.name = name then { e with modTime := t } else e)

/-- `logFile.Close()` guarded by `logFile != nil` (lines 69-71 and 86-88). -/
def closeLog (s : State) : State :=
  match s.logFile with
  | some h => { s with events := s.events ++ [Event.closeFile h] }
  | none => s

/-- `os.OpenFile(name, O_CREATE|O_APPEND|O_WRONLY)` succeeding: a missing file
is created, stamped with the next clock reading. -/
def createIfMissing (env : Env) (name : GoString) (s : State) : State :=
  if (stat s.dir name).isSome then s
  else { s with dir := s.dir ++ [{ name := name, modTime := (env.now s.ticks).unixNano }],
                ticks := s.ticks + 1 }

/-- Lines 69-77 of `openLog`: close the old handle, name the file after the
clock, open it, keep the handle. The error case is the panic of line 75. -/
def openFile (env : Env) (cfg : Config) (s : State) : Except State State :=
  let s1 := closeLog s
  let name := logFileName cfg.dir (env.now s1.ticks)
  let s2 := { s1 with ticks := s1.ticks + 1 }
  if env.openErr s2.opens then
    .error { s2 with opens := s2.opens + 1, pc := .panicked }
  else
    let h : Handle := { id := s2.opens, name := name }
    let s3 := createIfMissing env name.base s2
    .ok { s3 with
      logFile := some h
      events := s3.events ++ [Event.openFile h]
      opens := s3.opens + 1 }

/-- Line 78 of `openLog`: the retention sweep, reading the clock once. -/
def sweep (env : Env) (cfg : Config) (s : State) : State :=
  { s with
    dir := cleanOldLogs env.zone (env.faults s.sweeps) cfg.dir (env.now s.ticks) cfg.keepDays s.dir
    ticks := s.ticks + 1
    sweeps := s.sweeps + 1 }

/-- Source `openLog` (lines 68-79). -/
def openLog (env : Env) (cfg : Config) (s : State) : Except State State :=
  match openFile env cfg s with
  | .error sp => .error sp
  | .ok s1 => .ok (sweep env cfg s1)

/-- `logFile.WriteString(out)` (line 134): one append to the open file, which
the file system stamps with the next clock reading. -/
def writeLog (env : Env) (out : GoString) (s : State) : State :=
  match s.logFile with
  | some h =>
    { s with events := s.events ++ [Event.write h out]
             dir := touch s.dir h.name.base (env.now s.ticks).unixNano
             ticks := s.ticks + 1 }
  | none => s

/-- Lines 125-134: what is done with a line that was read. -/
def logLine (env : Env) (cfg : Config) (line : GoString) (s : State) : Except State State :=
  let now := env.now s.ticks
  let s1 := { s with ticks := s.ticks + 1 }
  let r := if now.Day ≠ s1.currentDay then openLog env cfg { s1 with currentDay := now.Day }
    else .ok s1
  match r with
  | .error sp => .error sp
  | .ok s2 =>
    let out := logRecord now line
    .ok (writeLog env out { s2 with events := s2.events ++ [Event.echo out] })

/-- One step of `runTelnetMonitor` (lines 83-138), from one consultation of
the environment to the next. -/
def step (env : Env) (cfg : Config) (s : State) : State :=
  match s.pc with
  | .loopTop =>
    if env.done s.polls then
      let s1 := closeLog { s with polls := s.polls + 1 }
      { s1 with events := s1.events ++ [Event.status .exit], pc := .returned }
    else { s with polls := s.polls + 1, pc := .dialing }
  | .dialing =>
    let s1 := { s with events := s.events ++ [Event.status .connecting, Event.dial 5]
                       dials := s.dials + 1 }
    match env.dial s.dials with
    | none => { s1 with events := s1.events ++ [Event.status .connectFailed], pc := .dialBackoff }
    | some c =>
      { s1 with events := s1.events ++ [Event.status .connected]
                pc := .sessionTop { buf := [], chunks := c.chunks, err := c.err } }
  | .dialBackoff => { s with events := s.events ++ [Event.sleep 3], pc := .loopTop }
  | .sessionTop rd =>
    if env.done s.polls then
      { s with polls := s.polls + 1, events := s.events ++ [Event.connClose], pc := .returned }
    else { s with polls := s.polls + 1, pc := .reading rd }
  | .reading rd =>
    match readString rd with
    | (.fail _ e, _) =>
      { s with events := s.events ++
                 [Event.status (if e = .other then .readError else .disconnected),
                  Event.connClose]
               pc := .sessionBackoff }
    | (.line line, rd1) =>
      match logLine env cfg line s with
      | .error sp => sp
      | .ok s1 => { s1 with pc := .sessionTop rd1 }
  | .sessionBackoff => { s with events := s.events ++ [Event.sleep 3], pc := .loopTop }
  | .returned => s
  | .panicked => s

/-- Lines 62-66: the state on reaching the first `openLog` (line 81), from the
log directory `d`; the clock was read once, for `currentDay`. -/
def entry (env : Env) (d : Dir) : State :=
  { pc := .loopTop, logFile := none, currentDay := (env.now 0).Day, dir := d,
    polls := 0, ticks := 1, dials := 0, opens := 0, sweeps := 0, events := [] }

/-- Lines 62-81: the state on reaching the loop of line 83 for the first time,
or at the panic of the first `openLog`. -/
def start (env : Env) (cfg : Config) (d : Dir) : State :=
  match openLog env cfg (entry env d) with
  | .ok s => s
  | .error s => s

/-- Iterate `step`. -/
def run (env : Env) (cfg : Config) : Nat → State → State
  | 0, s => s
  | n + 1, s => run env cfg n (step env cfg s)

/-- Source `runTelnetMonitor` (lines 61-139), observed after `n` steps of its
loop. -/
def runTelnetMonitor (env : Env) (cfg : Config) (d : Dir) (n : Nat) : State :=
  run env cfg n (start env cfg d)

/-! ## Observations on a run -/

/-- The appends made to log files, in order: the handle and the string. -/
def writesOf : List Event → List (Handle × GoString)
  | [] => []
  | Event.write h out :: es => (h, out) :: writesOf es
  | _ :: es => writesOf es

/-- The strings echoed on standard output by line 133, in order. -/
def echoesOf : List Event → List GoString
  | [] => []
  | Event.echo out :: es => out :: echoesOf es
  | _ :: es => echoesOf es

/-- The handles opened, in order. -/
def opensOf : List Event → List Handle
  | [] => []
  | Event.openFile h :: es => h :: opensOf es
  | _ :: es => opensOf es

/-- How many times the handle `h` was closed. -/
def closesOf (h : Handle) (es : List Event) : Nat :=
  es.count (Event.closeFile h)

/-- The number a string of decimal digits denotes. -/
def valOf (s : GoString) : Nat :=
  s.foldl (fun a c => 10 * a + (c.toNat - 48)) 0

/-! ## Sample inputs -/

/-- A configuration: a device address, the directory `logs`, a week of
retention. -/
def sampleCfg : Config :=
  { ip := "192.168.1.10".toList, port := 23, dir := "logs".toList, keepDays := 7 }

/-- A clock reading `k` nanoseconds after 2024-01-15 10:00:00 (zone UTC). -/
def jan15 (k : Nat) : Time :=
  { unixNano := 1705312800000000000 + k, year := 2024, month := 1, day := 15,
    hour := 10, minute := 0, second := 0 }

/-- A clock reading `k` nanoseconds after 2024-02-15 10:00:00 (zone UTC). -/
def feb15 (k : Nat) : Time :=
  { unixNano := 1707991200000000000 + k, year := 2024, month := 2, day := 15,
    hour := 10, minute := 0, second := 0 }

/-- An environment never cancelled and without faults: the clock reads
2024-01-15 six times and 2024-02-15 from then on, and every dial succeeds with
a stream of two lines, `a` and `b`, after which the peer closes. -/
def monthGapEnv : Env :=
  { zone := utc
    done := fun _ => false
    now := fun k => if k < 6 then jan15 k else feb15 k
    dial := fun _ => some { chunks := ["a\r\n".toList, "b\r\n".toList], err := .eof }
    openErr := fun _ => false
    faults := fun _ => noFaults }

/-- The state an `Except` result carries. -/
def stateOf : Except State State → State
  | .ok s => s
  | .error s => s

/-- The sample configuration with a retention of zero days. -/
def zeroKeepCfg : Config := { sampleCfg with keepDays := 0 }

/-- The environment `monthGapEnv` with the cancellation signal set from the
second poll on: the poll at the head of the reconnect loop sees it unset, the
poll at the head of the read loop sees it set. -/
def cancelInSessionEnv : Env :=
  { monthGapEnv with done := fun k => decide (1 ≤ k) }

/-- The environment `monthGapEnv` with the cancellation signal set from the
start. -/
def cancelAtTopEnv : Env :=
  { monthGapEnv with done := fun _ => true }

/-- The environment `monthGapEnv` with a first dial that fails. -/
def dialFailsOnceEnv : Env :=
  { monthGapEnv with
    dial := fun k => if k = 0 then none
      else some { chunks := ["a\r\n".toList, "b\r\n".toList], err := .eof } }

/-! ## Streams, as a specification sees them -/

/-- The bytes a reader has yet to return: its buffer followed by the chunks
still to be received. -/
def Reader.content (rd : Reader) : GoString := rd.buf ++ rd.chunks.flatten

/-- Readers that hold the same bytes and end with the same error, whatever the
chunk boundaries. -/
def Reader.Equiv (a b : Reader) : Prop := a.err = b.err ∧ a.content = b.content

/-- Program locations that are equal up to the chunking of their reader. -/
def Loc.Equiv (a b : Loc) : Prop :=
  a = b ∨ (∃ r1 r2, a = Loc.sessionTop r1 ∧ b = Loc.sessionTop r2 ∧ Reader.Equiv r1 r2) ∨
    (∃ r1 r2, a = Loc.reading r1 ∧ b = Loc.reading r2 ∧ Reader.Equiv r1 r2)

/-- The state `s` at the location `p`. -/
def setPc (p : Loc) (s : State) : State := { s with pc := p }

/-- States that are equal up to the chunking of their reader. -/
def Sim (a b : State) : Prop := ∃ p, b = setPc p a ∧ Loc.Equiv a.pc p

/-- The connection that delivers the whole stream of `c` in one chunk. -/
def oneChunk (c : Conn) : Conn := { chunks := [c.chunks.flatten], err := c.err }

/-- The environment in which every connection delivers its stream in one
chunk. -/
def unchunked (env : Env) : Env :=
  { env with dial := fun k => (env.dial k).map oneChunk }

/-- The segments of a stream that end in a line feed, in order, each with its
line feed; the bytes after the last line feed belong to none. -/
def segments : GoString → List GoString
  | [] => []
  | c :: cs =>
    if c = '\n' then ['\n'] :: segments cs
    else match segments cs with
      | [] => []
      | l :: ls => (c :: l) :: ls

/-- The environment `monthGapEnv` with connections that deliver
`hello\r\nworld\nrest`, cut inside the first line, between its carriage return
and its line feed, and inside the second line, and then fail; the last four
bytes are not followed by a line feed. -/
def cutLinesEnv : Env :=
  { monthGapEnv with
    dial := fun _ => some
      { chunks := ["he".toList, "llo\r".toList, "\nwor".toList, "ld\nrest".toList],
        err := .other } }

/-! ## Number formatting -/

theorem digitChar_toNat (d : Nat) (h : d < 10) : (digitChar d).toNat = 48 + d := by
  interval_cases d <;> rfl

theorem digitChar_isDigit (d : Nat) (h : d < 10) : (digitChar d).isDigit = true := by
  interval_cases d <;> rfl

theorem valOf_append_singleton (ds : GoString) (c : Char) :
    valOf (ds ++ [c]) = 10 * valOf ds + (c.toNat - 48) := by
  simp [valOf, List.foldl_append]

theorem decimalCore_spec (fuel : Nat) : ∀ (n : Nat) (acc : List Char), n < fuel →
    ∃ ds : List Char, decimalCore fuel n acc = ds ++ acc ∧ ds ≠ [] ∧
      (∀ c ∈ ds, c.isDigit = true) ∧ valOf ds = n := by
  induction fuel with
  | zero => intro n acc h; omega
  | succ fuel ih =>
    intro n acc h
    have hd : n % 10 < 10 := Nat.mod_lt _ (by decide)
    by_cases h0 : n / 10 = 0
    · refine ⟨[digitChar (n % 10)], ?_, by simp, ?_, ?_⟩
      · simp [decimalCore, h0]
      · intro c hc
        simp only [List.mem_singleton] at hc
        subst hc
        exact digitChar_isDigit _ hd
      · have := valOf_append_singleton [] (digitChar (n % 10))
        simp only [List.nil_append] at this
        rw [this, digitChar_toNat _ hd]
        simp [valOf]
        omega
    · have hlt : n / 10 < fuel := by omega
      obtain ⟨ds, heq, hne, hdig, hval⟩ := ih (n / 10) (digitChar (n % 10) :: acc) hlt
      refine ⟨ds ++ [digitChar (n % 10)], ?_, by simp, ?_, ?_⟩
      · simp [decimalCore, h0, heq]
      · intro c hc
        rcases List.mem_append.mp hc with hc | hc
        · exact hdig c hc
        · simp only [List.mem_singleton] at hc
          subst hc
          exact digitChar_isDigit _ hd
      · rw [valOf_append_singleton, hval, digitChar_toNat _ hd]
        omega

theorem decimal_spec (n : Nat) :
    decimal n ≠ [] ∧ (∀ c ∈ decimal n, c.isDigit = true) ∧ valOf (decimal n) = n := by
  obtain ⟨ds, heq, hne, hdig, hval⟩ := decimalCore_spec (n + 1) n [] (Nat.lt_succ_self n)
  have : decimal n = ds := by simp [decimal, heq]
  rw [this]
  exact ⟨hne, hdig, hval⟩

theorem decimalCore_length (fuel : Nat) : ∀ (n : Nat) (acc : List Char) (k : Nat), n < fuel →
    n < 10 ^ (k + 1) → (decimalCore fuel n acc).length ≤ k + 1 + acc.length := by
  induction fuel with
  | zero => intro n acc k h; omega
  | succ fuel ih =>
    intro n acc k h hk
    by_cases h0 : n / 10 = 0
    · simp [decimalCore, h0]
      omega
    · cases k with
      | zero =>
        exfalso
        simp at hk
        omega
      | succ k =>
        have hlt : n / 10 < fuel := by omega
        have hk2 : n / 10 < 10 ^ (k + 1) := by
          rw [Nat.div_lt_iff_lt_mul (by decide)]
          calc n < 10 ^ (k + 1 + 1) := hk
            _ = 10 ^ (k + 1) * 10 := by ring
        have := ih (n / 10) (digitChar (n % 10) :: acc) k hlt hk2
        simp [decimalCore, h0]
        simp at this
        omega

theorem decimal_length_le (n k : Nat) (h : n < 10 ^ (k + 1)) : (decimal n).length ≤ k + 1 := by
  have := decimalCore_length (n + 1) n [] k (Nat.lt_succ_self n) h
  simpa [decimal] using this

theorem valOf_zeros_append (k : Nat) (ds : GoString) :
    valOf (List.replicate k '0' ++ ds) = valOf ds := by
  induction k with
  | zero => simp
  | succ k ih =>
    have step : ∀ (xs : GoString), List.foldl (fun a c => 10 * a + (c.toNat - 48)) 0 ('0' :: xs) =
        List.foldl (fun a c => 10 * a + (c.toNat - 48)) 0 xs := by
      intro xs
      rfl
    simp only [valOf] at ih ⊢
    rw [List.replicate_succ, List.cons_append, step]
    exact ih

/-- The digits of `appendInt`, without the sign. -/
theorem appendInt_eq (x : Int) (w : Nat) :
    appendInt x w = (if x < 0 then ['-'] else []) ++
      (List.replicate (w - (decimal x.natAbs).length) '0' ++ decimal x.natAbs) := rfl

theorem padded_digits (n w : Nat) :
    (∀ c ∈ List.replicate (w - (decimal n).length) '0' ++ decimal n, c.isDigit = true) ∧
      List.replicate (w - (decimal n).length) '0' ++ decimal n ≠ [] ∧
      valOf (List.replicate (w - (decimal n).length) '0' ++ decimal n) = n := by
  obtain ⟨hne, hdig, hval⟩ := decimal_spec n
  refine ⟨?_, ?_, ?_⟩
  · intro c hc
    rcases List.mem_append.mp hc with hc | hc
    · rw [List.eq_of_mem_replicate hc]
      rfl
    · exact hdig c hc
  · simp [hne]
  · rw [valOf_zeros_append, hval]

/-- Every character `appendInt` produces is a decimal digit or the minus sign. -/
theorem appendInt_chars (x : Int) (w : Nat) :
    ∀ c ∈ appendInt x w, c.isDigit = true ∨ c = '-' := by
  intro c hc
  rw [appendInt_eq] at hc
  rcases List.mem_append.mp hc with hc | hc
  · right
    split at hc
    · simpa using hc
    · simp at hc
  · left
    exact (padded_digits x.natAbs w).1 c hc

theorem appendInt_inj (x y : Int) (w : Nat) (h : appendInt x w = appendInt y w) : x = y := by
  obtain ⟨hdx, hnx, hvx⟩ := padded_digits x.natAbs w
  obtain ⟨hdy, hny, hvy⟩ := padded_digits y.natAbs w
  rw [appendInt_eq, appendInt_eq] at h
  generalize List.replicate (w - (decimal x.natAbs).length) '0' ++ decimal x.natAbs = px at *
  generalize List.replicate (w - (decimal y.natAbs).length) '0' ++ decimal y.natAbs = py at *
  have hheadx : ∀ c ∈ px.head?, c ≠ '-' := by
    intro c hc h2
    have := hdx c (List.mem_of_mem_head? hc)
    rw [h2] at this
    exact absurd this (by decide)
  have hheady : ∀ c ∈ py.head?, c ≠ '-' := by
    intro c hc h2
    have := hdy c (List.mem_of_mem_head? hc)
    rw [h2] at this
    exact absurd this (by decide)
  by_cases hx : x < 0 <;> by_cases hy : y < 0
  · simp only [hx, hy, if_true] at h
    have : px = py := by simpa using h
    rw [this] at hvx
    omega
  · simp only [hx, hy, if_true, if_false, List.nil_append] at h
    exfalso
    cases py with
    | nil => exact hny rfl
    | cons c cs =>
      have : c = '-' := by
        simp at h
        exact h.1.symm
      exact hheady c (by simp) this
  · simp only [hx, hy, if_true, if_false, List.nil_append] at h
    exfalso
    cases px with
    | nil => exact hnx rfl
    | cons c cs =>
      have : c = '-' := by
        simp at h
        exact h.1
      exact hheadx c (by simp) this
  · simp only [hx, hy, if_false, List.nil_append] at h
    rw [h] at hvx
    omega

theorem appendInt_length (n : Nat) (k : Nat) (h : n < 10 ^ (k + 1)) :
    (appendInt (n : Int) (k + 1)).length = k + 1 := by
  have hl := decimal_length_le n k h
  have hnn : ¬ ((n : Int) < 0) := by omega
  simp only [appendInt_eq, hnn, if_false, List.nil_append, List.length_append,
    List.length_replicate, Int.natAbs_ofNat]
  omega

/-! ## File naming (C9) -/

theorem formatDate_inj (t1 t2 : Time) (h1 : t1.Valid) (h2 : t2.Valid)
    (h : formatDate t1 = formatDate t2) : t1.Date = t2.Date := by
  obtain ⟨_, hm1, _, hd1, _⟩ := h1
  obtain ⟨_, hm2, _, hd2, _⟩ := h2
  have lm1 := appendInt_length t1.month 1 (by norm_num; omega)
  have lm2 := appendInt_length t2.month 1 (by norm_num; omega)
  have ld1 := appendInt_length t1.day 1 (by norm_num; omega)
  have ld2 := appendInt_length t2.day 1 (by norm_num; omega)
  simp only [formatDate] at h
  obtain ⟨hym, hd⟩ := List.append_inj' h (by rw [ld1, ld2])
  obtain ⟨hy, hm⟩ := List.append_inj' hym (by rw [lm1, lm2])
  have ey := appendInt_inj _ _ _ hy
  have em := appendInt_inj _ _ _ hm
  have ed := appendInt_inj _ _ _ hd
  simp only [Time.Date]
  have em2 : t1.month = t2.month := by exact_mod_cast em
  have ed2 : t1.day = t2.day := by exact_mod_cast ed
  rw [ey, em2, ed2]

/-- C9: `logFileName d t` is the entry of `d` named `runlog_` + the local date
of `t` as zero-padded year, month and day + `.log` (for a year from 0 to 9999
the date is four, two and two decimal digits denoting the year, the month and
the day), and for a fixed `d` two instants get the same file name exactly when
their local calendar dates are equal. -/
theorem logFileName_one_file_per_day (d : GoString) (t1 t2 : Time)
    (h1 : t1.Valid) (h2 : t2.Valid) :
    logFileName d t1 =
        { dir := d
          base := "runlog_".toList ++
            (appendInt t1.year 4 ++ appendInt t1.month 2 ++ appendInt t1.day 2) ++
            ".log".toList } ∧
      (0 ≤ t1.year → t1.year ≤ 9999 →
        ∃ yyyy mm dd : GoString, formatDate t1 = yyyy ++ mm ++ dd ∧
          yyyy.length = 4 ∧ mm.length = 2 ∧ dd.length = 2 ∧
          (∀ c ∈ yyyy ++ mm ++ dd, c.isDigit = true) ∧
          (valOf yyyy : Int) = t1.year ∧ valOf mm = t1.month ∧ valOf dd = t1.day) ∧
      (logFileName d t1 = logFileName d t2 ↔ t1.Date = t2.Date) := by
  refine ⟨rfl, ?_, ?_⟩
  · intro hy0 hy1
    obtain ⟨_, hm1, _, hd1, _⟩ := h1
    obtain ⟨n, hn⟩ := Int.eq_ofNat_of_zero_le hy0
    have hn4 : n < 10 ^ (3 + 1) := by norm_num; omega
    refine ⟨appendInt t1.year 4, appendInt t1.month 2, appendInt t1.day 2, rfl, ?_, ?_, ?_,
      ?_, ?_, ?_, ?_⟩
    · rw [hn]; exact appendInt_length n 3 hn4
    · exact appendInt_length t1.month 1 (by norm_num; omega)
    · exact appendInt_length t1.day 1 (by norm_num; omega)
    · intro c hc
      have key : ∀ (m w : Nat), ∀ c ∈ appendInt (m : Int) w, c.isDigit = true := by
        intro m w c hc
        have hnn : ¬ ((m : Int) < 0) := by omega
        simp only [appendInt_eq, hnn, if_false, List.nil_append, Int.natAbs_ofNat] at hc
        exact (padded_digits m w).1 c hc
      rw [hn] at hc
      rcases List.mem_append.mp hc with hc | hc
      · rcases List.mem_append.mp hc with hc | hc
        · exact key _ _ c hc
        · exact key _ _ c hc
      · exact key _ _ c hc
    · have hnn : ¬ ((n : Int) < 0) := by omega
      rw [hn]
      simp only [appendInt_eq, hnn, if_false, List.nil_append, Int.natAbs_ofNat]
      rw [(padded_digits n 4).2.2]
    · have hnn : ¬ ((t1.month : Int) < 0) := by omega
      simp only [appendInt_eq, hnn, if_false, List.nil_append, Int.natAbs_ofNat]
      exact (padded_digits _ 2).2.2
    · have hnn : ¬ ((t1.day : Int) < 0) := by omega
      simp only [appendInt_eq, hnn, if_false, List.nil_append, Int.natAbs_ofNat]
      exact (padded_digits _ 2).2.2
  · constructor
    · intro h
      have hb : (logFileName d t1).base = (logFileName d t2).base := by rw [h]
      simp only [logFileName] at hb
      have hb2 := List.append_cancel_right hb
      have hb3 := List.append_cancel_left hb2
      exact formatDate_inj t1 t2 h1 h2 hb3
    · intro h
      simp only [Time.Date, Prod.mk.injEq] at h
      obtain ⟨hy, hm, hd⟩ := h
      simp only [logFileName, formatDate, hy, hm, hd]

/-- The instants 2024-01-15 10:00:00 and 2024-02-15 10:00:00, an instance of C9. -/
theorem logFileName_one_file_per_day_witness :
    (jan15 0).Valid ∧ (feb15 0).Valid ∧
      (logFileName "logs".toList (jan15 0) = logFileName "logs".toList (feb15 0) ↔
        (jan15 0).Date = (feb15 0).Date) :=
  ⟨by decide, by decide,
    (logFileName_one_file_per_day "logs".toList (jan15 0) (feb15 0) (by decide) (by decide)).2.2⟩

/-! ## The reader and the trimming step -/

theorem splitLF_some (b l r : GoString) (h : splitLF b = some (l, r)) :
    ∃ t, l = t ++ ['\n'] ∧ '\n' ∉ t ∧ b = l ++ r := by
  induction b generalizing l r with
  | nil => simp [splitLF] at h
  | cons c cs ih =>
    by_cases hc : c = '\n'
    · simp only [splitLF, hc, if_true, Option.some.injEq, Prod.mk.injEq] at h
      obtain ⟨hl, hr⟩ := h
      exact ⟨[], by simp [← hl], by simp, by simp [← hl, ← hr, hc]⟩
    · simp only [splitLF, hc, if_false] at h
      cases hs : splitLF cs with
      | none => simp [hs] at h
      | some p =>
        obtain ⟨l1, r1⟩ := p
        simp only [hs, Option.some.injEq, Prod.mk.injEq] at h
        obtain ⟨hl, hr⟩ := h
        obtain ⟨t, ht, hnt, hb⟩ := ih l1 r1 hs
        refine ⟨c :: t, by simp [← hl, ht], ?_, by simp [← hl, ← hr, hb]⟩
        simp only [List.mem_cons, not_or]
        exact ⟨fun h => hc h.symm, hnt⟩

theorem splitLF_none (b : GoString) (h : splitLF b = none) : '\n' ∉ b := by
  induction b with
  | nil => simp
  | cons c cs ih =>
    by_cases hc : c = '\n'
    · simp [splitLF, hc] at h
    · simp only [splitLF, hc, if_false] at h
      cases hs : splitLF cs with
      | none =>
        simp only [List.mem_cons, not_or]
        exact ⟨fun h => hc h.symm, ih hs⟩
      | some p => simp [hs] at h

theorem readFrom_line (err : ReadErr) (chunks : List GoString) :
    ∀ (buf l : GoString) (rd : Reader), readFrom err buf chunks = (.line l, rd) →
      ∃ t, l = t ++ ['\n'] ∧ '\n' ∉ t := by
  induction chunks with
  | nil =>
    intro buf l rd h
    cases hs : splitLF buf with
    | none => simp [readFrom, hs] at h
    | some p =>
      obtain ⟨l1, r1⟩ := p
      simp only [readFrom, hs, Prod.mk.injEq, ReadResult.line.injEq] at h
      obtain ⟨t, ht, hnt, _⟩ := splitLF_some buf l1 r1 hs
      exact ⟨t, by rw [← h.1, ht], hnt⟩
  | cons c cs ih =>
    intro buf l rd h
    cases hs : splitLF buf with
    | none =>
      simp only [readFrom, hs] at h
      exact ih _ l rd h
    | some p =>
      obtain ⟨l1, r1⟩ := p
      simp only [readFrom, hs, Prod.mk.injEq, ReadResult.line.injEq] at h
      obtain ⟨t, ht, hnt, _⟩ := splitLF_some buf l1 r1 hs
      exact ⟨t, by rw [← h.1, ht], hnt⟩

/-- A line `ReadString` returns without error ends in its only line feed. -/
theorem readString_line (rd rd1 : Reader) (l : GoString)
    (h : readString rd = (.line l, rd1)) : ∃ t, l = t ++ ['\n'] ∧ '\n' ∉ t :=
  readFrom_line rd.err rd.chunks rd.buf l rd1 h

theorem dropWhile_isCRLF_spec (r : GoString) (hn : '\n' ∉ r) :
    ∃ k, r = List.replicate k '\r' ++ r.dropWhile isCRLF ∧
      (r.dropWhile isCRLF).head? ≠ some '\r' ∧ (r.dropWhile isCRLF).head? ≠ some '\n' := by
  induction r with
  | nil => exact ⟨0, by simp, by simp, by simp⟩
  | cons c cs ih =>
    simp only [List.mem_cons, not_or] at hn
    obtain ⟨k, hk, hh, hh2⟩ := ih hn.2
    by_cases hc : c = '\r'
    · refine ⟨k + 1, ?_, ?_, ?_⟩
      · subst hc
        have : isCRLF '\r' = true := rfl
        rw [List.dropWhile_cons, this, if_pos rfl, List.replicate_succ, List.cons_append, ← hk]
      · subst hc
        have : isCRLF '\r' = true := rfl
        rw [List.dropWhile_cons, this, if_pos rfl]
        exact hh
      · subst hc
        have : isCRLF '\r' = true := rfl
        rw [List.dropWhile_cons, this, if_pos rfl]
        exact hh2
    · have hf : isCRLF c = false := by
        simp only [isCRLF, Bool.or_eq_false_iff, decide_eq_false_iff_not]
        exact ⟨hc, fun h => hn.1 h.symm⟩
      refine ⟨0, ?_, ?_, ?_⟩
      · simp [List.dropWhile_cons, hf]
      · simp [List.dropWhile_cons, hf, hc]
      · simp only [List.dropWhile_cons, hf]
        simp
        exact fun h => hn.1 h.symm

/-- Trimming a line `t` + line feed, with `t` free of line feeds, removes the
line feed and every trailing carriage return of `t`. -/
theorem trimRight_line (t : GoString) (hn : '\n' ∉ t) :
    ∃ k, t = trimRight (t ++ ['\n']) ++ List.replicate k '\r' ∧
      (trimRight (t ++ ['\n'])).getLast? ≠ some '\r' ∧
      (trimRight (t ++ ['\n'])).getLast? ≠ some '\n' := by
  have hn2 : '\n' ∉ t.reverse := by simpa using hn
  obtain ⟨k, hk, hh, hh2⟩ := dropWhile_isCRLF_spec t.reverse hn2
  have hlf : isCRLF '\n' = true := rfl
  have e : trimRight (t ++ ['\n']) = (t.reverse.dropWhile isCRLF).reverse := by
    simp [trimRight, List.dropWhile_cons, hlf]
  rw [e]
  refine ⟨k, ?_, ?_, ?_⟩
  · have := congrArg List.reverse hk
    simpa using this
  · rw [List.getLast?_reverse]; exact hh
  · rw [List.getLast?_reverse]; exact hh2

/-! ## The logged line text (C5) -/

/-- C5, as stated, fails on the line `hello\r\r\n`: the text `hello\r\r` holds
no line feed and ends in a carriage return, yet the logged text is `hello`,
not the text less one carriage return. -/
theorem trimRight_strips_two_returns :
    '\n' ∉ "hello\r\r".toList ∧ "hello\r\r".toList.getLast? = some '\r' ∧
      trimRight ("hello\r\r".toList ++ ['\n']) = "hello".toList ∧
      trimRight ("hello\r\r".toList ++ ['\n']) ≠ "hello\r\r".toList.dropLast ∧
      logRecord (jan15 0) ("hello\r\r".toList ++ ['\n']) =
        "[2024-01-15 10:00:00] hello\n".toList := by
  decide

/-- C5 amended: for a received line `t` + line feed with `t` free of line
feeds, the logged line text is `t` less all of its trailing carriage returns
(`t` itself when it does not end in one); the lines `hello\r\n` and `hello\n`
both yield `hello`. -/
theorem logged_text_strips_all_returns (now : Time) (t : GoString) (hn : '\n' ∉ t) :
    (∃ (text : GoString) (k : Nat), t = text ++ List.replicate k '\r' ∧
        text.getLast? ≠ some '\r' ∧
        trimRight (t ++ ['\n']) = text ∧
        logRecord now (t ++ ['\n']) = formatRecord now text) ∧
      (t.getLast? ≠ some '\r' → trimRight (t ++ ['\n']) = t) ∧
      trimRight "hello\r\n".toList = "hello".toList ∧
      trimRight "hello\n".toList = "hello".toList := by
  obtain ⟨k, hk, hh, _⟩ := trimRight_line t hn
  refine ⟨⟨trimRight (t ++ ['\n']), k, hk, hh, rfl, rfl⟩, ?_, by decide, by decide⟩
  intro hlast
  cases k with
  | zero => simpa using hk.symm
  | succ k =>
    exfalso
    apply hlast
    rw [hk, List.replicate_succ', ← List.append_assoc, List.getLast?_append]
    simp

/-- The line `hello\r\r\n`, an instance of C5 amended. -/
theorem logged_text_strips_all_returns_witness :
    '\n' ∉ "hello\r\r".toList ∧
      ∃ (text : GoString) (k : Nat), "hello\r\r".toList = text ++ List.replicate k '\r' ∧
        text.getLast? ≠ some '\r' ∧
        trimRight ("hello\r\r".toList ++ ['\n']) = text ∧
        logRecord (jan15 0) ("hello\r\r".toList ++ ['\n']) = formatRecord (jan15 0) text :=
  ⟨by decide, (logged_text_strips_all_returns (jan15 0) "hello\r\r".toList (by decide)).1⟩

/-! ## The record (C7) -/

theorem appendInt_no_LF (x : Int) (w : Nat) : '\n' ∉ appendInt x w := by
  intro h
  rcases appendInt_chars x w _ h with h1 | h1
  · exact absurd h1 (by decide)
  · exact absurd h1 (by decide)

theorem formatStamp_no_LF (t : Time) : '\n' ∉ formatStamp t := by
  simp [formatStamp, appendInt_no_LF]

theorem writeLog_events (env : Env) (out : GoString) (s : State) (h : Handle)
    (hf : s.logFile = some h) :
    (writeLog env out s).events = s.events ++ [Event.write h out] ∧
      (writeLog env out s).logFile = some h := by
  simp [writeLog, hf]

theorem writeLog_logFile (env : Env) (out : GoString) (s : State) :
    (writeLog env out s).logFile = s.logFile := by
  unfold writeLog
  split <;> simp_all

theorem writeLog_counters (env : Env) (out : GoString) (s : State) :
    (writeLog env out s).polls = s.polls ∧ (writeLog env out s).opens = s.opens := by
  unfold writeLog
  split <;> exact ⟨rfl, rfl⟩

theorem logLine_events (env : Env) (cfg : Config) (line : GoString) (s s1 : State)
    (h : Handle) (hlog : logLine env cfg line s = .ok s1) (hf : s1.logFile = some h) :
    ∃ pre, s1.events = pre ++
      [Event.echo (logRecord (env.now s.ticks) line),
       Event.write h (logRecord (env.now s.ticks) line)] := by
  unfold logLine at hlog
  simp only at hlog
  split at hlog
  · exact absurd hlog (by simp)
  · rename_i s2 _
    simp only [Except.ok.injEq] at hlog
    have hf2 : s2.logFile = some h := by
      rw [← hlog, writeLog_logFile] at hf
      exact hf
    refine ⟨s2.events, ?_⟩
    rw [← hlog]
    have := (writeLog_events env (logRecord (env.now s.ticks) line)
      { s2 with events := s2.events ++ [Event.echo (logRecord (env.now s.ticks) line)] } h hf2).1
    rw [this]
    simp

/-- C7: when a line that `ReadString` returned is logged, the string appended
to the log file (and echoed) is `[` + the local time of the instant read on
line 125 as `YYYY-MM-DD HH:MM:SS` + `] ` + the line less its trailing carriage
returns and line feeds + one line feed; it holds exactly one line feed, its
last character. -/
theorem record_is_one_line (env : Env) (cfg : Config) (s s1 : State) (rd rd1 : Reader)
    (line : GoString) (h : Handle)
    (hread : readString rd = (.line line, rd1))
    (hlog : logLine env cfg line s = .ok s1)
    (hfile : s1.logFile = some h) :
    ∃ (out text suffix : GoString) (pre : List Event),
      s1.events = pre ++ [Event.echo out, Event.write h out] ∧
      out = '[' :: (appendInt (env.now s.ticks).year 4 ++ '-' ::
              appendInt (env.now s.ticks).month 2 ++ '-' ::
              appendInt (env.now s.ticks).day 2 ++ ' ' ::
              appendInt (env.now s.ticks).hour 2 ++ ':' ::
              appendInt (env.now s.ticks).minute 2 ++ ':' ::
              appendInt (env.now s.ticks).second 2) ++ "] ".toList ++ text ++ ['\n'] ∧
      line = text ++ suffix ∧ (∀ c ∈ suffix, c = '\r' ∨ c = '\n') ∧
      text.getLast? ≠ some '\r' ∧ text.getLast? ≠ some '\n' ∧
      out.count '\n' = 1 ∧ out.getLast? = some '\n' := by
  obtain ⟨t, ht, hnt⟩ := readString_line rd rd1 line hread
  obtain ⟨k, hk, hl1, hl2⟩ := trimRight_line t hnt
  obtain ⟨pre, hpre⟩ := logLine_events env cfg line s s1 h hlog hfile
  refine ⟨logRecord (env.now s.ticks) line, trimRight line, List.replicate k '\r' ++ ['\n'], pre,
    hpre, rfl, ?_, ?_, ?_, ?_, ?_, ?_⟩
  · rw [ht, ← List.append_assoc, ← hk]
  · intro c hc
    rcases List.mem_append.mp hc with hc | hc
    · left; exact List.eq_of_mem_replicate hc
    · right; simpa using hc
  · rw [ht]; exact hl1
  · rw [ht]; exact hl2
  · have hs := formatStamp_no_LF (env.now s.ticks)
    have htx : '\n' ∉ trimRight line := by
      intro hmem
      apply hnt
      rw [hk]
      rw [ht] at hmem
      exact List.mem_append_left _ hmem
    simp only [logRecord, formatRecord, List.count_cons, List.count_append,
      List.count_eq_zero_of_not_mem hs, List.count_eq_zero_of_not_mem htx]
    decide
  · unfold logRecord formatRecord
    exact List.getLast?_concat _

/-- The first line of the sample run, an instance of C7. -/
theorem record_is_one_line_witness :
    readString { buf := [], chunks := ["a\r\n".toList, "b\r\n".toList], err := .eof } =
        (.line "a\r\n".toList, { buf := [], chunks := ["b\r\n".toList], err := .eof }) ∧
      logLine monthGapEnv sampleCfg "a\r\n".toList (runTelnetMonitor monthGapEnv sampleCfg [] 3) =
        .ok (stateOf (logLine monthGapEnv sampleCfg "a\r\n".toList
          (runTelnetMonitor monthGapEnv sampleCfg [] 3))) ∧
      (stateOf (logLine monthGapEnv sampleCfg "a\r\n".toList
          (runTelnetMonitor monthGapEnv sampleCfg [] 3))).logFile =
        some { id := 0, name := logFileName "logs".toList (jan15 0) } ∧
      ∃ (out text suffix : GoString) (pre : List Event),
        (stateOf (logLine monthGapEnv sampleCfg "a\r\n".toList
          (runTelnetMonitor monthGapEnv sampleCfg [] 3))).events =
            pre ++ [Event.echo out,
              Event.write { id := 0, name := logFileName "logs".toList (jan15 0) } out] ∧
        out = "[2024-01-15 10:00:00] ".toList ++ text ++ ['\n'] ∧
        "a\r\n".toList = text ++ suffix ∧ out.count '\n' = 1 :=
  ⟨by rfl, by rfl, by rfl,
    by
      obtain ⟨out, text, suffix, pre, h1, h2, h3, _, _, _, h7, _⟩ :=
        record_is_one_line monthGapEnv sampleCfg (runTelnetMonitor monthGapEnv sampleCfg [] 3)
          (stateOf (logLine monthGapEnv sampleCfg "a\r\n".toList
            (runTelnetMonitor monthGapEnv sampleCfg [] 3)))
          { buf := [], chunks := ["a\r\n".toList, "b\r\n".toList], err := .eof }
          { buf := [], chunks := ["b\r\n".toList], err := .eof }
          "a\r\n".toList { id := 0, name := logFileName "logs".toList (jan15 0) }
          (by rfl) (by rfl) (by rfl)
      exact ⟨out, text, suffix, pre, h1, h2, h3, h7⟩⟩

/-! ## The retention sweep (C4) -/

theorem names_nodup_filter (d : Dir) (p : FileInfo → Bool)
    (h : (d.map FileInfo.name).Nodup) : ((d.filter p).map FileInfo.name).Nodup :=
  List.Nodup.sublist (List.Sublist.map _ (List.filter_sublist d)) h

theorem stat_some (d : Dir) (f : GoString) (info : FileInfo) (h : stat d f = some info) :
    info ∈ d ∧ info.name = f := by
  unfold stat at h
  refine ⟨List.mem_of_find?_eq_some h, ?_⟩
  have := List.find?_some h
  simpa using this

theorem stat_none (d : Dir) (f : GoString) (h : stat d f = none) :
    ∀ e ∈ d, e.name ≠ f := by
  unfold stat at h
  intro e he
  have := List.find?_eq_none.mp h e he
  simpa using this

theorem stat_of_mem (d : Dir) (e : FileInfo) (hnd : (d.map FileInfo.name).Nodup)
    (he : e ∈ d) : stat d e.name = some e := by
  cases hs : stat d e.name with
  | none => exact absurd rfl (stat_none d e.name hs e he)
  | some info =>
    obtain ⟨hi, hn⟩ := stat_some d e.name info hs
    rw [List.inj_on_of_nodup_map hnd hi he hn]

/-- One pass of the loop body, when Stat and Remove succeed on `f`. -/
theorem sweepOne_eq_filter (flt : Faults) (cutoff : Int) (d : Dir) (f : GoString)
    (hnd : (d.map FileInfo.name).Nodup)
    (hstat : flt.statErr f = false) (hrem : flt.removeErr f = false) :
    sweepOne flt cutoff d f =
      d.filter (fun e => !(decide (e.name = f) && decide (e.modTime < cutoff))) := by
  unfold sweepOne
  simp only [hstat, hrem, Bool.false_eq_true, if_false]
  cases hs : stat d f with
  | none =>
    symm
    rw [List.filter_eq_self]
    intro e he
    simp [stat_none d f hs e he]
  | some info =>
    obtain ⟨hi, hn⟩ := stat_some d f info hs
    have huniq : ∀ e ∈ d, e.name = f → e = info := by
      intro e he hname
      exact List.inj_on_of_nodup_map hnd he hi (hname.trans hn.symm)
    by_cases hlt : info.modTime < cutoff
    · simp only [hlt, if_true, remove]
      apply List.filter_congr
      intro e he
      by_cases hname : e.name = f
      · have := huniq e he hname
        subst this
        simp [hname, hlt]
      · simp [hname]
    · simp only [hlt, if_false]
      symm
      rw [List.filter_eq_self]
      intro e he
      by_cases hname : e.name = f
      · have := huniq e he hname
        subst this
        simp [hlt]
      · simp [hname]

theorem sweep_fold_eq_filter (flt : Faults) (cutoff : Int)
    (hstat : ∀ f, flt.statErr f = false) (hrem : ∀ f, flt.removeErr f = false)
    (fs : List GoString) : ∀ (d : Dir), (d.map FileInfo.name).Nodup →
      fs.foldl (sweepOne flt cutoff) d =
        d.filter (fun e => !(decide (e.name ∈ fs) && decide (e.modTime < cutoff))) := by
  induction fs with
  | nil =>
    intro d _
    simp
  | cons f fs ih =>
    intro d hnd
    rw [List.foldl_cons, sweepOne_eq_filter flt cutoff d f hnd (hstat f) (hrem f),
      ih _ (names_nodup_filter d _ hnd), List.filter_filter]
    apply List.filter_congr
    intro e _
    by_cases h1 : e.name = f <;> by_cases h2 : e.name ∈ fs <;>
      by_cases h3 : e.modTime < cutoff <;> simp [h1, h2, h3]

theorem negInt_of_range (k : Int) (h1 : -9223372036854775808 < k)
    (h2 : k < 9223372036854775808) : negInt k = -k := by
  unfold negInt
  omega

theorem lists_of_plain (flt : Faults) (dirPath f : GoString)
    (hp : hasMeta dirPath = false) (hl : flt.unlisted f = false) :
    lists flt dirPath f = true := by
  simp [lists, hp, hl]

theorem mem_glob (flt : Faults) (dirPath : GoString) (d : Dir) (e : FileInfo) (he : e ∈ d) :
    e.name ∈ glob flt dirPath d ↔
      (lists flt dirPath e.name = true ∧ matchRunlog e.name = true) := by
  unfold glob
  simp only [List.mem_map, List.mem_filter, Bool.and_eq_true]
  constructor
  · rintro ⟨e1, ⟨_, hm⟩, hn⟩
    rw [← hn]; exact hm
  · intro hm
    exact ⟨e, ⟨he, hm⟩, rfl⟩

theorem cleanOldLogs_eq_filter (zone : Zone) (flt : Faults) (dirPath : GoString) (now : Time)
    (keepDays : Int) (d : Dir) (hnd : (d.map FileInfo.name).Nodup)
    (hstat : ∀ f, flt.statErr f = false) (hrem : ∀ f, flt.removeErr f = false) :
    cleanOldLogs zone flt dirPath now keepDays d =
      d.filter (fun e => !(lists flt dirPath e.name && matchRunlog e.name &&
        decide (e.modTime < zone.addDays now (negInt keepDays)))) := by
  unfold cleanOldLogs
  simp only
  rw [sweep_fold_eq_filter flt _ hstat hrem (glob flt dirPath d) d hnd]
  apply List.filter_congr
  intro e he
  by_cases hm : lists flt dirPath e.name = true ∧ matchRunlog e.name = true
  · simp [(mem_glob flt dirPath d e he).mpr hm, hm.1, hm.2]
  · have hng : e.name ∉ glob flt dirPath d := fun h => hm ((mem_glob flt dirPath d e he).mp h)
    have hf : (lists flt dirPath e.name && matchRunlog e.name) = false := by
      rw [← Bool.not_eq_true, Bool.and_eq_true]
      exact hm
    simp [hng, hf]

/-- C4, as stated, fails when the sweep does not list the log directory. With
the directory path `logs[1]`, which `filepath.Glob` reads as a pattern that
does not include the directory of that name, and with a directory `logs`
that cannot be read, the log of 2024-01-01 matches `runlog_*.log` and is
older than the cutoff of a sweep on 2024-01-15 with a week of retention, Stat
and Remove would succeed, and yet `cleanOldLogs` leaves the directory as it
was. -/
theorem sweep_skips_unlisted_directory :
    hasMeta "logs[1]".toList = true ∧
      matchRunlog "runlog_20240101.log".toList = true ∧
      (1704103200000000000 : Int) < utc.addDays (jan15 0) (negInt 7) ∧
      cleanOldLogs utc { noFaults with reachesDir := false } "logs[1]".toList (jan15 0) 7
          [{ name := "runlog_20240101.log".toList, modTime := 1704103200000000000 }] =
        [{ name := "runlog_20240101.log".toList, modTime := 1704103200000000000 }] ∧
      hasMeta "logs".toList = false ∧
      cleanOldLogs utc unreadable "logs".toList (jan15 0) 7
          [{ name := "runlog_20240101.log".toList, modTime := 1704103200000000000 }] =
        [{ name := "runlog_20240101.log".toList, modTime := 1704103200000000000 }] := by
  decide

/-- C4 amended: with distinct entry names and Stat and Remove succeeding, the
directory after `cleanOldLogs` is the directory before less the entries that
the sweep lists, whose name matches `runlog_*.log` and whose modification time
is strictly before the cutoff, the instant of `now.AddDate(0, 0, -keepDays)`.
A listed matching entry before the cutoff is removed; a matching entry at or
after the cutoff, an entry that does not match (whatever its age) and an
entry that is not listed are kept. The sweep lists every entry when the
directory path holds no pattern character and the directory is read in full;
when it lists none, the directory is unchanged. -/
theorem cleanOldLogs_removes_exactly_expired (zone : Zone) (flt : Faults)
    (dirPath : GoString) (now : Time) (keepDays : Int)
    (d : Dir) (hnd : (d.map FileInfo.name).Nodup)
    (hstat : ∀ f, flt.statErr f = false) (hrem : ∀ f, flt.removeErr f = false) :
    cleanOldLogs zone flt dirPath now keepDays d =
        d.filter (fun e => !(lists flt dirPath e.name && matchRunlog e.name &&
          decide (e.modTime < zone.addDays now (negInt keepDays)))) ∧
      (∀ e ∈ d, lists flt dirPath e.name = true → matchRunlog e.name = true →
        e.modTime < zone.addDays now (negInt keepDays) →
        e ∉ cleanOldLogs zone flt dirPath now keepDays d) ∧
      (∀ e ∈ d, zone.addDays now (negInt keepDays) ≤ e.modTime →
        e ∈ cleanOldLogs zone flt dirPath now keepDays d) ∧
      (∀ e ∈ d, matchRunlog e.name = false →
        e ∈ cleanOldLogs zone flt dirPath now keepDays d) ∧
      (∀ e ∈ d, lists flt dirPath e.name = false →
        e ∈ cleanOldLogs zone flt dirPath now keepDays d) ∧
      (∀ e ∈ cleanOldLogs zone flt dirPath now keepDays d, e ∈ d) ∧
      (hasMeta dirPath = false → (∀ f, flt.unlisted f = false) →
        cleanOldLogs zone flt dirPath now keepDays d =
          d.filter (fun e => !(matchRunlog e.name &&
            decide (e.modTime < zone.addDays now (negInt keepDays))))) ∧
      ((∀ e ∈ d, lists flt dirPath e.name = false) →
        cleanOldLogs zone flt dirPath now keepDays d = d) ∧
      (-9223372036854775808 < keepDays → keepDays < 9223372036854775808 →
        negInt keepDays = -keepDays) := by
  have key := cleanOldLogs_eq_filter zone flt dirPath now keepDays d hnd hstat hrem
  generalize zone.addDays now (negInt keepDays) = c at key ⊢
  refine ⟨key, ?_, ?_, ?_, ?_, ?_, ?_, ?_, negInt_of_range keepDays⟩
  · intro e _ hl hm hlt
    rw [key, List.mem_filter]
    simp [hl, hm, hlt]
  · intro e he hge
    rw [key, List.mem_filter]
    refine ⟨he, ?_⟩
    have : ¬ e.modTime < c := not_lt.mpr hge
    simp [this]
  · intro e he hm
    rw [key, List.mem_filter]
    exact ⟨he, by simp [hm]⟩
  · intro e he hl
    rw [key, List.mem_filter]
    exact ⟨he, by simp [hl]⟩
  · intro e he
    rw [key] at he
    exact (List.mem_filter.mp he).1
  · intro hp hl
    rw [key]
    apply List.filter_congr
    intro e _
    rw [lists_of_plain flt dirPath e.name hp (hl e.name)]
    simp
  · intro hno
    rw [key, List.filter_eq_self]
    intro e he
    simp [hno e he]

/-- A directory `logs` of three files swept on 2024-01-15 in the zone UTC with
a week of retention, an instance of C4 amended: the log of 2024-01-01 goes,
the log of 2024-01-10 and the old file of another name stay. -/
theorem cleanOldLogs_removes_exactly_expired_witness :
    (([{ name := "runlog_20240101.log".toList, modTime := 1704103200000000000 },
        { name := "runlog_20240110.log".toList, modTime := 1704880800000000000 },
        { name := "notes_20230101.txt".toList, modTime := 1672567200000000000 }] : Dir).map
          FileInfo.name).Nodup ∧
      (∀ f, noFaults.statErr f = false) ∧ (∀ f, noFaults.removeErr f = false) ∧
      cleanOldLogs utc noFaults "logs".toList (jan15 0) 7
          [{ name := "runlog_20240101.log".toList, modTime := 1704103200000000000 },
           { name := "runlog_20240110.log".toList, modTime := 1704880800000000000 },
           { name := "notes_20230101.txt".toList, modTime := 1672567200000000000 }] =
        [{ name := "runlog_20240110.log".toList, modTime := 1704880800000000000 },
         { name := "notes_20230101.txt".toList, modTime := 1672567200000000000 }] :=
  ⟨by decide, fun _ => rfl, fun _ => rfl,
    (cleanOldLogs_removes_exactly_expired utc noFaults "logs".toList (jan15 0) 7
      [{ name := "runlog_20240101.log".toList, modTime := 1704103200000000000 },
       { name := "runlog_20240110.log".toList, modTime := 1704880800000000000 },
       { name := "notes_20230101.txt".toList, modTime := 1672567200000000000 }]
      (by decide) (fun _ => rfl) (fun _ => rfl)).1.trans (by decide)⟩

/-! ## The sweep and the file just opened (C3) -/

theorem formatDate_no_slash (t : Time) : '/' ∉ formatDate t := by
  have key : ∀ (x : Int) (w : Nat), '/' ∉ appendInt x w := by
    intro x w h
    rcases appendInt_chars x w _ h with h1 | h1
    · exact absurd h1 (by decide)
    · exact absurd h1 (by decide)
  simp [formatDate, key]

/-- The name `logFileName` builds matches the pattern the sweep lists. -/
theorem matchRunlog_logFileName (dir : GoString) (t : Time) :
    matchRunlog (logFileName dir t).base = true := by
  have hs := formatDate_no_slash t
  simp only [matchRunlog, logFileName, Bool.and_eq_true, Bool.not_eq_true',
    List.isPrefixOf_iff_prefix, List.isSuffixOf_iff_suffix]
  refine ⟨⟨?_, ?_⟩, ?_⟩
  · rw [List.append_assoc]
    exact List.prefix_append _ _
  · have : ("runlog_".toList ++ formatDate t ++ ".log".toList).drop 7 =
        formatDate t ++ ".log".toList := by
      rw [List.append_assoc]
      exact List.drop_left' rfl
    rw [this]
    exact List.suffix_append _ _
  · rw [← Bool.not_eq_true]
    simp only [List.contains, List.elem_iff, List.mem_append, not_or]
    exact ⟨⟨by decide, hs⟩, by decide⟩

theorem sweepOne_sublist (flt : Faults) (cutoff : Int) (d : Dir) (f : GoString) :
    List.Sublist (sweepOne flt cutoff d f) d := by
  unfold sweepOne
  split
  · exact List.Sublist.refl _
  · split
    · exact List.Sublist.refl _
    · split
      · split
        · exact List.Sublist.refl _
        · exact List.filter_sublist d
      · exact List.Sublist.refl _

theorem sweep_fold_sublist (flt : Faults) (cutoff : Int) (fs : List GoString) :
    ∀ d : Dir, List.Sublist (fs.foldl (sweepOne flt cutoff) d) d := by
  induction fs with
  | nil => intro d; exact List.Sublist.refl _
  | cons f fs ih =>
    intro d
    exact (ih _).trans (sweepOne_sublist flt cutoff d f)

theorem names_nodup_sublist (d1 d2 : Dir) (hs : List.Sublist d1 d2)
    (h : (d2.map FileInfo.name).Nodup) : (d1.map FileInfo.name).Nodup :=
  List.Nodup.sublist (List.Sublist.map _ hs) h

/-- The loop body never removes an entry that is not older than the cutoff,
nor one on which Stat or Remove fails. -/
theorem sweepOne_keeps (flt : Faults) (cutoff : Int) (d : Dir) (f : GoString)
    (hnd : (d.map FileInfo.name).Nodup) (e : FileInfo) (he : e ∈ d)
    (hkeep : ¬ e.modTime < cutoff ∨ flt.statErr e.name = true ∨ flt.removeErr e.name = true) :
    e ∈ sweepOne flt cutoff d f := by
  unfold sweepOne
  split
  · exact he
  · rename_i hst
    split
    · exact he
    · rename_i info hs
      split
      · rename_i hlt
        split
        · exact he
        · rename_i hre
          obtain ⟨hi, hn⟩ := stat_some d f info hs
          simp only [remove, List.mem_filter, decide_eq_true_eq]
          refine ⟨he, ?_⟩
          intro hname
          have heq : e = info := List.inj_on_of_nodup_map hnd he hi (hname.trans hn.symm)
          rcases hkeep with hge | hse | hrr
          · rw [heq] at hge
            exact hge hlt
          · rw [hname] at hse
            exact hst hse
          · rw [hname] at hrr
            exact hre hrr
      · exact he

theorem sweep_fold_keeps (flt : Faults) (cutoff : Int) (e : FileInfo)
    (hkeep : ¬ e.modTime < cutoff ∨ flt.statErr e.name = true ∨ flt.removeErr e.name = true)
    (fs : List GoString) :
    ∀ d : Dir, (d.map FileInfo.name).Nodup → e ∈ d → e ∈ fs.foldl (sweepOne flt cutoff) d := by
  induction fs with
  | nil => intro d _ he; exact he
  | cons f fs ih =>
    intro d hnd he
    exact ih _ (names_nodup_sublist _ _ (sweepOne_sublist flt cutoff d f) hnd)
      (sweepOne_keeps flt cutoff d f hnd e he hkeep)

/-- The loop body for `f` leaves the entries of another name alone. -/
theorem sweepOne_keeps_other (flt : Faults) (cutoff : Int) (d : Dir) (f : GoString)
    (e : FileInfo) (he : e ∈ d) (hne : e.name ≠ f) : e ∈ sweepOne flt cutoff d f := by
  unfold sweepOne
  split
  · exact he
  · split
    · exact he
    · split
      · split
        · exact he
        · simp only [remove, List.mem_filter, decide_eq_true_eq]
          exact ⟨he, hne⟩
      · exact he

theorem sweep_fold_keeps_other (flt : Faults) (cutoff : Int) (e : FileInfo)
    (fs : List GoString) (hnot : e.name ∉ fs) :
    ∀ d : Dir, e ∈ d → e ∈ fs.foldl (sweepOne flt cutoff) d := by
  induction fs with
  | nil => intro d he; exact he
  | cons f fs ih =>
    intro d he
    simp only [List.mem_cons, not_or] at hnot
    exact ih hnot.2 _ (sweepOne_keeps_other flt cutoff d f e he hnot.1)

/-- The loop body removes an expired entry when its Stat and Remove succeed. -/
theorem sweepOne_removes (flt : Faults) (cutoff : Int) (d : Dir)
    (hnd : (d.map FileInfo.name).Nodup) (e : FileInfo)
    (hlt : e.modTime < cutoff) (hstat : flt.statErr e.name = false)
    (hrem : flt.removeErr e.name = false) : e ∉ sweepOne flt cutoff d e.name := by
  by_cases he : e ∈ d
  · have hs := stat_of_mem d e hnd he
    simp [sweepOne, hstat, hrem, hs, hlt, remove]
  · intro h
    exact he ((sweepOne_sublist flt cutoff d e.name).subset h)

theorem sweep_fold_removes (flt : Faults) (cutoff : Int) (e : FileInfo)
    (hlt : e.modTime < cutoff) (hstat : flt.statErr e.name = false)
    (hrem : flt.removeErr e.name = false) (fs : List GoString) :
    ∀ d : Dir, (d.map FileInfo.name).Nodup → e.name ∈ fs →
      e ∉ fs.foldl (sweepOne flt cutoff) d := by
  induction fs with
  | nil => intro d _ h; simp at h
  | cons f fs ih =>
    intro d hnd hmem
    have hnd2 := names_nodup_sublist _ _ (sweepOne_sublist flt cutoff d f) hnd
    by_cases hin : e.name ∈ fs
    · exact ih _ hnd2 hin
    · have hf : f = e.name := by
        rcases List.mem_cons.mp hmem with h | h
        · exact h.symm
        · exact absurd h hin
      subst hf
      intro h
      exact sweepOne_removes flt cutoff d hnd e hlt hstat hrem
        ((sweep_fold_sublist flt cutoff fs _).subset h)

theorem stat_append_new (d : Dir) (e : FileInfo) (hnd : (d.map FileInfo.name).Nodup)
    (h : stat d e.name = none) :
    stat (d ++ [e]) e.name = some e ∧ ((d ++ [e]).map FileInfo.name).Nodup := by
  have hne := stat_none d e.name h
  have hnd2 : ((d ++ [e]).map FileInfo.name).Nodup := by
    rw [List.map_append, List.nodup_append]
    refine ⟨hnd, by simp, ?_⟩
    intro a ha hb
    simp only [List.map_cons, List.map_nil, List.mem_singleton] at hb
    obtain ⟨e1, he1, hn1⟩ := List.mem_map.mp ha
    exact hne e1 he1 (hn1.trans hb)
  exact ⟨stat_of_mem _ e hnd2 (by simp), hnd2⟩

theorem closeLog_fields (s : State) :
    (closeLog s).ticks = s.ticks ∧ (closeLog s).dir = s.dir ∧ (closeLog s).opens = s.opens ∧
      (closeLog s).sweeps = s.sweeps ∧ (closeLog s).pc = s.pc ∧
      (closeLog s).polls = s.polls ∧ (closeLog s).dials = s.dials ∧
      (closeLog s).currentDay = s.currentDay ∧ (closeLog s).logFile = s.logFile := by
  unfold closeLog
  split <;> simp

theorem createIfMissing_spec (env : Env) (name : GoString) (s : State)
    (hnd : (s.dir.map FileInfo.name).Nodup) :
    ((createIfMissing env name s).dir.map FileInfo.name).Nodup ∧
      (∃ info, stat (createIfMissing env name s).dir name = some info) ∧
      (createIfMissing env name s).sweeps = s.sweeps ∧
      (createIfMissing env name s).opens = s.opens ∧
      (createIfMissing env name s).pc = s.pc := by
  unfold createIfMissing
  cases hs : stat s.dir name with
  | some info =>
    simp only [Option.isSome_some, if_true]
    exact ⟨hnd, ⟨info, hs⟩, trivial, trivial, trivial⟩
  | none =>
    simp only [Option.isSome_none, Bool.false_eq_true, if_false]
    have := stat_append_new s.dir { name := name, modTime := (env.now s.ticks).unixNano } hnd hs
    exact ⟨this.2, ⟨_, this.1⟩, trivial, trivial, trivial⟩

theorem openFile_ok (env : Env) (cfg : Config) (s s1 : State)
    (hnd : (s.dir.map FileInfo.name).Nodup) (hok : openFile env cfg s = .ok s1) :
    s1.logFile = some { id := s.opens, name := logFileName cfg.dir (env.now s.ticks) } ∧
      (s1.dir.map FileInfo.name).Nodup ∧
      (∃ info, stat s1.dir (logFileName cfg.dir (env.now s.ticks)).base = some info) ∧
      s1.sweeps = s.sweeps ∧ s1.pc = s.pc := by
  obtain ⟨ht, hd, ho, hsw, hpc, _⟩ := closeLog_fields s
  unfold openFile at hok
  simp only at hok
  split at hok
  · exact absurd hok (by simp)
  · simp only [Except.ok.injEq] at hok
    have hc := createIfMissing_spec env (logFileName cfg.dir (env.now (closeLog s).ticks)).base
      { closeLog s with ticks := (closeLog s).ticks + 1 } (by simpa [hd] using hnd)
    rw [ht] at hok hc
    rw [← hok]
    refine ⟨by simp [ho], hc.1, hc.2.1, ?_, ?_⟩
    · simpa [hsw] using hc.2.2.1
    · simpa [hpc] using hc.2.2.2.2

/-- C3, as stated, fails with a retention of zero days: at startup on an
empty directory `openLog` creates `runlog_20240115.log`, and the sweep that
follows, reading the clock one nanosecond later, removes it; the monitor goes
on to its loop with a handle on a file that is no longer in the directory. -/
theorem sweep_removes_file_just_opened :
    (start monthGapEnv zeroKeepCfg []).pc = Loc.loopTop ∧
      (start monthGapEnv zeroKeepCfg []).logFile =
        some { id := 0, name := logFileName "logs".toList (jan15 1) } ∧
      (logFileName "logs".toList (jan15 1)).base = "runlog_20240115.log".toList ∧
      (stateOf (openFile monthGapEnv zeroKeepCfg (entry monthGapEnv []))).dir =
        [{ name := "runlog_20240115.log".toList, modTime := 1705312800000000002 }] ∧
      stat (start monthGapEnv zeroKeepCfg []).dir "runlog_20240115.log".toList = none := by
  decide

/-- C3 amended: when `openLog` succeeds on a directory with distinct entry
names, the sweep it triggers removes the file just opened exactly when the
sweep lists that file, Stat and Remove succeed on it, and its modification
time is strictly before the cutoff, the instant of
`now.AddDate(0, 0, -keepDays)` for the sweep's clock reading `now`; in every
other case the file just opened is still in the directory, unchanged, after
`cleanOldLogs` returns. The sweep lists the file whenever the directory path
holds no pattern character and the listing of the directory returns it. -/
theorem openLog_keeps_active_file_iff (env : Env) (cfg : Config) (s s2 : State)
    (hnd : (s.dir.map FileInfo.name).Nodup) (hok : openLog env cfg s = .ok s2) :
    ∃ (s1 : State) (h : Handle) (info : FileInfo),
      openFile env cfg s = .ok s1 ∧ s2 = sweep env cfg s1 ∧
      s2.logFile = some h ∧ h.name = logFileName cfg.dir (env.now s.ticks) ∧
      stat s1.dir h.name.base = some info ∧
      (stat s2.dir h.name.base = none ↔
        (lists (env.faults s1.sweeps) cfg.dir h.name.base = true ∧
          (env.faults s1.sweeps).statErr h.name.base = false ∧
          (env.faults s1.sweeps).removeErr h.name.base = false ∧
          info.modTime < env.zone.addDays (env.now s1.ticks) (negInt cfg.keepDays))) ∧
      (stat s2.dir h.name.base = none ∨ stat s2.dir h.name.base = some info) ∧
      (hasMeta cfg.dir = false → (env.faults s1.sweeps).unlisted h.name.base = false →
        lists (env.faults s1.sweeps) cfg.dir h.name.base = true) := by
  unfold openLog at hok
  cases hof : openFile env cfg s with
  | error sp => simp [hof] at hok
  | ok s1 =>
    simp only [hof, Except.ok.injEq] at hok
    obtain ⟨hlf, hnd1, ⟨info, hinfo⟩, _, _⟩ := openFile_ok env cfg s s1 hnd hof
    obtain ⟨hmem, hname⟩ := stat_some _ _ _ hinfo
    have hsub : List.Sublist s2.dir s1.dir := by
      rw [← hok]
      exact sweep_fold_sublist _ _ _ _
    have hnd2 := names_nodup_sublist _ _ hsub hnd1
    have hin_stat : info ∈ s2.dir →
        stat s2.dir (logFileName cfg.dir (env.now s.ticks)).base = some info := by
      intro hin
      have := stat_of_mem s2.dir info hnd2 hin
      rw [hname] at this
      exact this
    have hout_stat : info ∉ s2.dir →
        stat s2.dir (logFileName cfg.dir (env.now s.ticks)).base = none := by
      intro hout
      cases hs : stat s2.dir (logFileName cfg.dir (env.now s.ticks)).base with
      | none => rfl
      | some e =>
        exfalso
        obtain ⟨he, hen⟩ := stat_some _ _ _ hs
        have : e = info :=
          List.inj_on_of_nodup_map hnd1 (hsub.subset he) hmem (hen.trans hname.symm)
        exact hout (this ▸ he)
    have hremoved : lists (env.faults s1.sweeps) cfg.dir
          (logFileName cfg.dir (env.now s.ticks)).base = true →
        (env.faults s1.sweeps).statErr (logFileName cfg.dir (env.now s.ticks)).base = false →
        (env.faults s1.sweeps).removeErr (logFileName cfg.dir (env.now s.ticks)).base = false →
        info.modTime < env.zone.addDays (env.now s1.ticks) (negInt cfg.keepDays) →
        info ∉ s2.dir := by
      intro hl hstat hrem hlt
      have hg : info.name ∈ glob (env.faults s1.sweeps) cfg.dir s1.dir := by
        rw [mem_glob _ _ _ _ hmem, hname]
        exact ⟨hl, matchRunlog_logFileName _ _⟩
      rw [← hok]
      exact sweep_fold_removes _ _ info hlt (by rw [hname]; exact hstat)
        (by rw [hname]; exact hrem) _ _ hnd1 hg
    have hkept : ¬ (lists (env.faults s1.sweeps) cfg.dir
          (logFileName cfg.dir (env.now s.ticks)).base = true ∧
        (env.faults s1.sweeps).statErr (logFileName cfg.dir (env.now s.ticks)).base = false ∧
        (env.faults s1.sweeps).removeErr (logFileName cfg.dir (env.now s.ticks)).base = false ∧
        info.modTime < env.zone.addDays (env.now s1.ticks) (negInt cfg.keepDays)) →
        info ∈ s2.dir := by
      intro hno
      by_cases hl : lists (env.faults s1.sweeps) cfg.dir
          (logFileName cfg.dir (env.now s.ticks)).base = true
      · rw [← hok]
        apply sweep_fold_keeps _ _ info _ _ _ hnd1 hmem
        by_cases hlt : info.modTime < env.zone.addDays (env.now s1.ticks) (negInt cfg.keepDays)
        · by_cases hst : (env.faults s1.sweeps).statErr info.name = true
          · exact Or.inr (Or.inl hst)
          · by_cases hre : (env.faults s1.sweeps).removeErr info.name = true
            · exact Or.inr (Or.inr hre)
            · exfalso
              apply hno
              rw [hname] at hst hre
              exact ⟨hl, by simpa using hst, by simpa using hre, hlt⟩
        · exact Or.inl hlt
      · rw [← hok]
        apply sweep_fold_keeps_other _ _ info _ _ _ hmem
        intro hg
        rw [mem_glob _ _ _ _ hmem, hname] at hg
        exact hl hg.1
    refine ⟨s1, { id := s.opens, name := logFileName cfg.dir (env.now s.ticks) }, info, rfl,
      hok.symm, ?_, rfl, hinfo, ?_, ?_, lists_of_plain _ _ _⟩
    · rw [← hok]; exact hlf
    · constructor
      · intro hnone
        by_contra hno
        have := hin_stat (hkept hno)
        rw [hnone] at this
        exact absurd this (by simp)
      · rintro ⟨hl, hstat, hrem, hlt⟩
        exact hout_stat (hremoved hl hstat hrem hlt)
    · by_cases hin : info ∈ s2.dir
      · exact Or.inr (hin_stat hin)
      · exact Or.inl (hout_stat hin)

/-- The startup of the sample run, an instance of C3 amended. -/
theorem openLog_keeps_active_file_iff_witness :
    ((entry monthGapEnv []).dir.map FileInfo.name).Nodup ∧
      openLog monthGapEnv sampleCfg (entry monthGapEnv []) =
        .ok (start monthGapEnv sampleCfg []) ∧
      ∃ (s1 : State) (h : Handle) (info : FileInfo),
        openFile monthGapEnv sampleCfg (entry monthGapEnv []) = .ok s1 ∧
        start monthGapEnv sampleCfg [] = sweep monthGapEnv sampleCfg s1 ∧
        (start monthGapEnv sampleCfg []).logFile = some h ∧
        h.name = logFileName sampleCfg.dir (monthGapEnv.now (entry monthGapEnv []).ticks) ∧
        stat s1.dir h.name.base = some info ∧
        (stat (start monthGapEnv sampleCfg []).dir h.name.base = none ↔
          (lists (monthGapEnv.faults s1.sweeps) sampleCfg.dir h.name.base = true ∧
            (monthGapEnv.faults s1.sweeps).statErr h.name.base = false ∧
            (monthGapEnv.faults s1.sweeps).removeErr h.name.base = false ∧
            info.modTime <
              monthGapEnv.zone.addDays (monthGapEnv.now s1.ticks) (negInt sampleCfg.keepDays))) ∧
        (stat (start monthGapEnv sampleCfg []).dir h.name.base = none ∨
          stat (start monthGapEnv sampleCfg []).dir h.name.base = some info) ∧
        (hasMeta sampleCfg.dir = false →
          (monthGapEnv.faults s1.sweeps).unlisted h.name.base = false →
          lists (monthGapEnv.faults s1.sweeps) sampleCfg.dir h.name.base = true) :=
  ⟨by decide, by rfl,
    openLog_keeps_active_file_iff monthGapEnv sampleCfg (entry monthGapEnv [])
      (start monthGapEnv sampleCfg []) (by decide) (by rfl)⟩

/-! ## Rotation (C1) and shutdown (C2) on the code -/

/-- C1 on the code: a line read on 2024-01-15 and the next one read on
2024-02-15 (same day of the month) are both appended through the handle opened
at startup on `runlog_20240115.log`; no other file is opened, although the
second record's date names `runlog_20240215.log`. -/
theorem month_gap_keeps_first_day_file :
    (jan15 4).Date ≠ (feb15 6).Date ∧
      writesOf (runTelnetMonitor monthGapEnv sampleCfg [] 6).events =
        [({ id := 0, name := logFileName "logs".toList (jan15 1) },
            "[2024-01-15 10:00:00] a\n".toList),
         ({ id := 0, name := logFileName "logs".toList (jan15 1) },
            "[2024-02-15 10:00:00] b\n".toList)] ∧
      opensOf (runTelnetMonitor monthGapEnv sampleCfg [] 6).events =
        [{ id := 0, name := logFileName "logs".toList (jan15 1) }] ∧
      (logFileName "logs".toList (jan15 1)).base = "runlog_20240115.log".toList ∧
      (logFileName "logs".toList (feb15 6)).base = "runlog_20240215.log".toList ∧
      (runTelnetMonitor monthGapEnv sampleCfg [] 6).currentDay = 15 := by
  decide

/-- C2 on the code: when the cancellation is observed at the head of the read
loop, the monitor returns after closing the connection only; the log file
handle opened at startup is never closed. Observed at the head of the
reconnect loop, the same cancellation closes it once. -/
theorem cancel_in_session_leaves_log_open :
    (runTelnetMonitor cancelInSessionEnv sampleCfg [] 3).pc = Loc.returned ∧
      (runTelnetMonitor cancelInSessionEnv sampleCfg [] 3).events =
        [Event.openFile { id := 0, name := logFileName "logs".toList (jan15 1) },
         Event.status .connecting, Event.dial 5, Event.status .connected, Event.connClose] ∧
      closesOf { id := 0, name := logFileName "logs".toList (jan15 1) }
        (runTelnetMonitor cancelInSessionEnv sampleCfg [] 3).events = 0 ∧
      (runTelnetMonitor cancelAtTopEnv sampleCfg [] 1).pc = Loc.returned ∧
      closesOf { id := 0, name := logFileName "logs".toList (jan15 1) }
        (runTelnetMonitor cancelAtTopEnv sampleCfg [] 1).events = 1 := by
  decide

/-! ## The reconnect loop (C8) -/

theorem openFile_error_pc (env : Env) (cfg : Config) (s sp : State)
    (h : openFile env cfg s = .error sp) : sp.pc = Loc.panicked := by
  unfold openFile at h
  simp only at h
  split at h
  · simp only [Except.error.injEq] at h
    rw [← h]
  · exact absurd h (by simp)

theorem openLog_error_pc (env : Env) (cfg : Config) (s sp : State)
    (h : openLog env cfg s = .error sp) : sp.pc = Loc.panicked := by
  unfold openLog at h
  cases hof : openFile env cfg s with
  | error s1 =>
    simp only [hof, Except.error.injEq] at h
    rw [← h]
    exact openFile_error_pc env cfg s s1 hof
  | ok s1 => simp [hof] at h

theorem openFile_ok_pc (env : Env) (cfg : Config) (s s1 : State)
    (h : openFile env cfg s = .ok s1) : s1.pc = s.pc := by
  unfold openFile at h
  simp only at h
  split at h
  · exact absurd h (by simp)
  · simp only [Except.ok.injEq] at h
    rw [← h]
    simp only [createIfMissing]
    split
    · exact (closeLog_fields s).2.2.2.2.1
    · exact (closeLog_fields s).2.2.2.2.1

theorem openLog_ok_pc (env : Env) (cfg : Config) (s s2 : State)
    (h : openLog env cfg s = .ok s2) : s2.pc = s.pc := by
  unfold openLog at h
  cases hof : openFile env cfg s with
  | error s1 => simp [hof] at h
  | ok s1 =>
    simp only [hof, Except.ok.injEq] at h
    rw [← h]
    exact openFile_ok_pc env cfg s s1 hof

theorem logLine_error_pc (env : Env) (cfg : Config) (line : GoString) (s sp : State)
    (h : logLine env cfg line s = .error sp) : sp.pc = Loc.panicked := by
  unfold logLine at h
  simp only at h
  split at h
  · rename_i sp1 heq
    simp only [Except.error.injEq] at h
    rw [← h]
    split at heq
    · exact openLog_error_pc _ _ _ _ heq
    · exact absurd heq (by simp)
  · exact absurd h (by simp)

theorem start_pc (env : Env) (cfg : Config) (d : Dir) :
    (start env cfg d).pc = Loc.loopTop ∨ (start env cfg d).pc = Loc.panicked := by
  unfold start
  cases h : openLog env cfg (entry env d) with
  | error sp => right; exact openLog_error_pc env cfg _ sp h
  | ok s => left; exact openLog_ok_pc env cfg _ s h

/-- A step returns only from one of the two polls, and only when the poll
observes the cancellation signal set. -/
theorem step_returned (env : Env) (cfg : Config) (s : State)
    (hs : s.pc ≠ Loc.returned) (h : (step env cfg s).pc = Loc.returned) :
    env.done s.polls = true ∧ (s.pc = Loc.loopTop ∨ ∃ rd, s.pc = Loc.sessionTop rd) := by
  unfold step at h
  split at h
  · rename_i hpc
    by_cases hd : env.done s.polls = true
    · exact ⟨hd, Or.inl hpc⟩
    · simp [hd] at h
  · split at h <;> simp at h
  · simp at h
  · rename_i rd hpc
    by_cases hd : env.done s.polls = true
    · exact ⟨hd, Or.inr ⟨rd, hpc⟩⟩
    · simp [hd] at h
  · split at h
    · simp at h
    · split at h
      · rename_i sp hl
        rw [logLine_error_pc env cfg _ s sp hl] at h
        exact absurd h (by simp)
      · simp at h
  · simp at h
  · rename_i hpc
    exact absurd hpc hs
  · rename_i hpc
    rw [hpc] at h
    exact absurd h (by simp)

theorem run_never_returns (env : Env) (cfg : Config) (hd : ∀ k, env.done k = false)
    (n : Nat) : ∀ s : State, s.pc ≠ Loc.returned → (run env cfg n s).pc ≠ Loc.returned := by
  induction n with
  | zero => intro s hs; exact hs
  | succ n ih =>
    intro s hs
    apply ih
    intro h
    have := (step_returned env cfg s hs h).1
    rw [hd] at this
    exact absurd this (by simp)

theorem step_dialing_events (env : Env) (cfg : Config) (s : State)
    (hpc : s.pc = Loc.dialing) :
    ∃ m, (step env cfg s).events =
      s.events ++ [Event.status .connecting, Event.dial 5, Event.status m] := by
  cases hdial : env.dial s.dials with
  | none =>
    refine ⟨Status.connectFailed, ?_⟩
    unfold step
    simp [hpc, hdial]
  | some c =>
    refine ⟨Status.connected, ?_⟩
    unfold step
    simp [hpc, hdial]

/-- C8: a dial failure, a peer close or a read error does not make the monitor
return. The failing step goes to a backoff location; the next step is the wait
of 3 seconds and leads to the head of the reconnect loop; from there, unless
the cancellation signal is observed set, the next two steps are the poll and
another dial attempt. A step returns only from a poll that observes the
signal set, and a run whose signal is never set never returns. -/
theorem failures_lead_to_backoff_and_redial (env : Env) (cfg : Config) (s : State)
    (hfail : (s.pc = Loc.dialing ∧ env.dial s.dials = none) ∨
      (∃ rd rest e rd1, s.pc = Loc.reading rd ∧ readString rd = (.fail rest e, rd1))) :
    ((run env cfg 1 s).pc = Loc.dialBackoff ∨ (run env cfg 1 s).pc = Loc.sessionBackoff) ∧
      (run env cfg 2 s).events = (run env cfg 1 s).events ++ [Event.sleep 3] ∧
      (run env cfg 2 s).pc = Loc.loopTop ∧
      (env.done (run env cfg 2 s).polls = false →
        (run env cfg 3 s).pc = Loc.dialing ∧
        (run env cfg 3 s).events = (run env cfg 2 s).events ∧
        ∃ m, (run env cfg 4 s).events =
          (run env cfg 3 s).events ++ [Event.status .connecting, Event.dial 5, Event.status m]) ∧
      (∀ s0 : State, s0.pc ≠ Loc.returned → (step env cfg s0).pc = Loc.returned →
        env.done s0.polls = true ∧ (s0.pc = Loc.loopTop ∨ ∃ rd, s0.pc = Loc.sessionTop rd)) ∧
      ((∀ k, env.done k = false) → ∀ d n, (runTelnetMonitor env cfg d n).pc ≠ Loc.returned) := by
  have hstep : ∃ s1, step env cfg s = s1 ∧
      (s1.pc = Loc.dialBackoff ∨ s1.pc = Loc.sessionBackoff) := by
    rcases hfail with ⟨hpc, hd⟩ | ⟨rd, rest, e, rd1, hpc, hr⟩
    · refine ⟨_, rfl, Or.inl ?_⟩
      unfold step
      simp [hpc, hd]
    · refine ⟨_, rfl, Or.inr ?_⟩
      unfold step
      simp [hpc, hr]
  obtain ⟨s1, hs1, hpc1⟩ := hstep
  have hsleep : ∃ s2, step env cfg s1 = s2 ∧ s2.events = s1.events ++ [Event.sleep 3] ∧
      s2.pc = Loc.loopTop ∧ s2.polls = s1.polls := by
    rcases hpc1 with h | h
    · refine ⟨_, rfl, ?_⟩
      unfold step
      simp [h]
    · refine ⟨_, rfl, ?_⟩
      unfold step
      simp [h]
  obtain ⟨s2, hs2, hev2, hpc2, _⟩ := hsleep
  have hr1 : run env cfg 1 s = s1 := by simp [run, hs1]
  have hr2 : run env cfg 2 s = s2 := by simp [run, hs1, hs2]
  have hr3 : run env cfg 3 s = step env cfg s2 := by simp [run, hs1, hs2]
  have hr4 : run env cfg 4 s = step env cfg (step env cfg s2) := by simp [run, hs1, hs2]
  rw [hr1, hr2, hr3, hr4]
  refine ⟨hpc1, hev2, hpc2, ?_, step_returned env cfg, ?_⟩
  · intro hnd
    have h3 : (step env cfg s2).pc = Loc.dialing ∧ (step env cfg s2).events = s2.events ∧
        (step env cfg s2).dials = s2.dials := by
      unfold step
      simp [hpc2, hnd]
    exact ⟨h3.1, h3.2.1, step_dialing_events env cfg _ h3.1⟩
  · intro hnever d n
    unfold runTelnetMonitor
    apply run_never_returns env cfg hnever
    rcases start_pc env cfg d with h | h <;> rw [h] <;> simp

/-- A first dial that fails, an instance of C8. -/
theorem failures_lead_to_backoff_and_redial_witness :
    ((runTelnetMonitor dialFailsOnceEnv sampleCfg [] 1).pc = Loc.dialing ∧
        dialFailsOnceEnv.dial (runTelnetMonitor dialFailsOnceEnv sampleCfg [] 1).dials = none) ∧
      (run dialFailsOnceEnv sampleCfg 2 (runTelnetMonitor dialFailsOnceEnv sampleCfg [] 1)).events =
        (run dialFailsOnceEnv sampleCfg 1
          (runTelnetMonitor dialFailsOnceEnv sampleCfg [] 1)).events ++ [Event.sleep 3] ∧
      (run dialFailsOnceEnv sampleCfg 2
        (runTelnetMonitor dialFailsOnceEnv sampleCfg [] 1)).pc = Loc.loopTop :=
  ⟨by decide,
    (failures_lead_to_backoff_and_redial dialFailsOnceEnv sampleCfg
      (runTelnetMonitor dialFailsOnceEnv sampleCfg [] 1) (Or.inl (by decide))).2.1,
    (failures_lead_to_backoff_and_redial dialFailsOnceEnv sampleCfg
      (runTelnetMonitor dialFailsOnceEnv sampleCfg [] 1) (Or.inl (by decide))).2.2.1⟩

/-! ## Chunk boundaries (C6) -/

theorem splitLF_append_some (a b l r : GoString) (h : splitLF a = some (l, r)) :
    splitLF (a ++ b) = some (l, r ++ b) := by
  induction a generalizing l r with
  | nil => simp [splitLF] at h
  | cons c cs ih =>
    by_cases hc : c = '\n'
    · simp only [splitLF, hc, if_true, Option.some.injEq, Prod.mk.injEq] at h
      simp [splitLF, hc, ← h.1, ← h.2]
    · simp only [splitLF, hc, if_false] at h
      cases hs : splitLF cs with
      | none => simp [hs] at h
      | some p =>
        obtain ⟨l1, r1⟩ := p
        simp only [hs, Option.some.injEq, Prod.mk.injEq] at h
        simp [splitLF, hc, ih l1 r1 hs, ← h.1, ← h.2]

theorem splitLF_append_none (a b : GoString) (h : splitLF a = none) :
    splitLF (a ++ b) = (splitLF b).map (fun p => (a ++ p.1, p.2)) := by
  induction a with
  | nil =>
    rw [List.nil_append]
    cases hb : splitLF b <;> simp
  | cons c cs ih =>
    by_cases hc : c = '\n'
    · simp [splitLF, hc] at h
    · simp only [splitLF, hc, if_false] at h
      cases hs : splitLF cs with
      | some p => simp [hs] at h
      | none =>
        rw [List.cons_append]
        simp only [splitLF, hc, if_false]
        rw [ih hs]
        cases hb : splitLF b <;> simp

/-- What `ReadString` returns depends on the bytes to come, not on how they
are cut into chunks. -/
theorem readFrom_spec (err : ReadErr) (chunks : List GoString) : ∀ buf : GoString,
    match splitLF (buf ++ chunks.flatten) with
    | some (l, r) => ∃ rd, readFrom err buf chunks = (.line l, rd) ∧ rd.err = err ∧
        rd.content = r
    | none => readFrom err buf chunks =
        (.fail (buf ++ chunks.flatten) err, { buf := [], chunks := [], err := err }) := by
  induction chunks with
  | nil =>
    intro buf
    simp only [List.flatten_nil, List.append_nil]
    cases hs : splitLF buf with
    | none => simp [readFrom, hs]
    | some p =>
      obtain ⟨l, r⟩ := p
      simp [readFrom, hs, Reader.content]
  | cons c cs ih =>
    intro buf
    cases hb : splitLF buf with
    | some p =>
      obtain ⟨l, r⟩ := p
      rw [splitLF_append_some buf _ l r hb]
      simp [readFrom, hb, Reader.content]
    | none =>
      have := ih (buf ++ c)
      rw [List.flatten_cons, ← List.append_assoc]
      simp only [readFrom, hb]
      exact this

theorem readString_spec (rd : Reader) :
    match splitLF rd.content with
    | some (l, r) => ∃ rd1, readString rd = (.line l, rd1) ∧ rd1.err = rd.err ∧
        rd1.content = r
    | none => readString rd =
        (.fail rd.content rd.err, { buf := [], chunks := [], err := rd.err }) :=
  readFrom_spec rd.err rd.chunks rd.buf

theorem closeLog_setPc (p : Loc) (s : State) : closeLog (setPc p s) = setPc p (closeLog s) := by
  obtain ⟨pc, lf, cd, d, po, ti, di, op, sw, ev⟩ := s
  cases lf <;> rfl

theorem createIfMissing_setPc (env : Env) (name : GoString) (p : Loc) (s : State) :
    createIfMissing env name (setPc p s) = setPc p (createIfMissing env name s) := by
  obtain ⟨pc, lf, cd, d, po, ti, di, op, sw, ev⟩ := s
  simp only [createIfMissing, setPc]
  split <;> rfl

theorem openFile_setPc (env : Env) (cfg : Config) (p : Loc) (s : State) :
    openFile env cfg (setPc p s) = Except.map (setPc p) (openFile env cfg s) := by
  obtain ⟨pc, lf, cd, d, po, ti, di, op, sw, ev⟩ := s
  cases lf <;>
  · simp only [openFile, closeLog, setPc, createIfMissing]
    split
    · rfl
    · split <;> rfl

theorem sweep_setPc (env : Env) (cfg : Config) (p : Loc) (s : State) :
    sweep env cfg (setPc p s) = setPc p (sweep env cfg s) := rfl

theorem openLog_setPc (env : Env) (cfg : Config) (p : Loc) (s : State) :
    openLog env cfg (setPc p s) = Except.map (setPc p) (openLog env cfg s) := by
  unfold openLog
  rw [openFile_setPc]
  cases openFile env cfg s with
  | error sp => rfl
  | ok s1 => simp [Except.map, sweep_setPc]

theorem writeLog_setPc (env : Env) (out : GoString) (p : Loc) (s : State) :
    writeLog env out (setPc p s) = setPc p (writeLog env out s) := by
  obtain ⟨pc, lf, cd, d, po, ti, di, op, sw, ev⟩ := s
  cases lf <;> rfl

theorem logLine_setPc (env : Env) (cfg : Config) (line : GoString) (p : Loc) (s : State) :
    logLine env cfg line (setPc p s) = Except.map (setPc p) (logLine env cfg line s) := by
  have key : ∀ (s1 : State) (r : Except State State),
      openLog env cfg (setPc p s1) = Except.map (setPc p) r →
      (match openLog env cfg (setPc p s1) with
        | .error sp => Except.error sp
        | .ok s2 => Except.ok (writeLog env (logRecord (env.now s.ticks) line)
            { s2 with events := s2.events ++ [Event.echo (logRecord (env.now s.ticks) line)] })) =
      Except.map (setPc p) (match r with
        | .error sp => Except.error sp
        | .ok s2 => Except.ok (writeLog env (logRecord (env.now s.ticks) line)
            { s2 with events := s2.events ++
              [Event.echo (logRecord (env.now s.ticks) line)] })) := by
    intro s1 r h
    rw [h]
    cases r with
    | error sp => rfl
    | ok s2 =>
      simp only [Except.map]
      exact congrArg Except.ok (writeLog_setPc env (logRecord (env.now s.ticks) line) p
        { s2 with events := s2.events ++ [Event.echo (logRecord (env.now s.ticks) line)] })
  unfold logLine
  simp only
  by_cases hd : (env.now s.ticks).Day ≠ s.currentDay
  · have hd2 : (env.now (setPc p s).ticks).Day ≠ (setPc p s).currentDay := hd
    simp only [hd, hd2, if_true, ne_eq, not_false_eq_true]
    exact key { s with ticks := s.ticks + 1, currentDay := (env.now s.ticks).Day } _
      (openLog_setPc env cfg p _)
  · have hd2 : ¬ (env.now (setPc p s).ticks).Day ≠ (setPc p s).currentDay := hd
    simp only [hd, hd2, if_false, Except.map, ne_eq, not_true_eq_false]
    exact congrArg Except.ok (writeLog_setPc env (logRecord (env.now s.ticks) line) p
      { s with ticks := s.ticks + 1,
               events := s.events ++ [Event.echo (logRecord (env.now s.ticks) line)] })

theorem Sim.refl (a : State) : Sim a a := ⟨a.pc, rfl, Or.inl rfl⟩

theorem Sim.fields (a b : State) (h : Sim a b) :
    b.events = a.events ∧ b.dir = a.dir ∧ b.logFile = a.logFile ∧
      b.currentDay = a.currentDay ∧ b.ticks = a.ticks ∧ b.polls = a.polls ∧
      b.dials = a.dials ∧ b.opens = a.opens ∧ b.sweeps = a.sweeps := by
  obtain ⟨p, rfl, _⟩ := h
  exact ⟨rfl, rfl, rfl, rfl, rfl, rfl, rfl, rfl, rfl⟩

/-- Away from the dial, a step does not depend on how connections chunk
their streams. -/
theorem step_unchunked (env : Env) (cfg : Config) (s : State) (h : s.pc ≠ Loc.dialing) :
    step (unchunked env) cfg s = step env cfg s := by
  unfold step
  split
  · rfl
  · rename_i hpc; exact absurd hpc h
  · rfl
  · rfl
  · rfl
  · rfl
  · rfl
  · rfl

theorem step_dialing_sim (env : Env) (cfg : Config) (s : State) (h : s.pc = Loc.dialing) :
    Sim (step env cfg s) (step (unchunked env) cfg s) := by
  unfold step
  simp only [h]
  have hd : (unchunked env).dial s.dials = (env.dial s.dials).map oneChunk := rfl
  rw [hd]
  cases env.dial s.dials with
  | none => exact Sim.refl _
  | some c =>
    refine ⟨Loc.sessionTop { buf := [], chunks := [c.chunks.flatten], err := c.err }, rfl,
      Or.inr (Or.inl ⟨_, _, rfl, rfl, rfl, ?_⟩)⟩
    simp [Reader.content]

theorem step_sessionTop_sim (env : Env) (cfg : Config) (s : State) (r1 r2 : Reader)
    (h : s.pc = Loc.sessionTop r1) (hr : Reader.Equiv r1 r2) :
    Sim (step env cfg s) (step env cfg (setPc (Loc.sessionTop r2) s)) := by
  unfold step
  have hp : (setPc (Loc.sessionTop r2) s).pc = Loc.sessionTop r2 := rfl
  have hq : (setPc (Loc.sessionTop r2) s).polls = s.polls := rfl
  simp only [h, hp, hq]
  by_cases hd : env.done s.polls = true
  · simp only [hd, if_true]
    exact ⟨Loc.returned, rfl, Or.inl rfl⟩
  · simp only [hd, if_false]
    exact ⟨Loc.reading r2, rfl, Or.inr (Or.inr ⟨r1, r2, rfl, rfl, hr⟩)⟩

theorem step_reading_sim (env : Env) (cfg : Config) (s : State) (r1 r2 : Reader)
    (h : s.pc = Loc.reading r1) (hr : Reader.Equiv r1 r2) :
    Sim (step env cfg s) (step env cfg (setPc (Loc.reading r2) s)) := by
  have s1 := readString_spec r1
  have s2 := readString_spec r2
  rw [← hr.2] at s2
  rw [← hr.1] at s2
  unfold step
  have hp : (setPc (Loc.reading r2) s).pc = Loc.reading r2 := rfl
  simp only [h, hp]
  cases hs : splitLF r1.content with
  | none =>
    simp only [hs] at s1 s2
    rw [s1, s2]
    exact ⟨Loc.sessionBackoff, rfl, Or.inl rfl⟩
  | some q =>
    obtain ⟨l, r⟩ := q
    simp only [hs] at s1 s2
    obtain ⟨rd1, e1, herr1, hc1⟩ := s1
    obtain ⟨rd2, e2, herr2, hc2⟩ := s2
    rw [e1, e2]
    simp only [logLine_setPc]
    cases logLine env cfg l s with
    | error sp => exact Sim.refl _
    | ok t =>
      simp only [Except.map]
      exact ⟨Loc.sessionTop rd2, rfl,
        Or.inr (Or.inl ⟨rd1, rd2, rfl, rfl, herr1.trans herr2.symm, hc1.trans hc2.symm⟩)⟩

theorem setPc_self (s : State) : setPc s.pc s = s := rfl

theorem step_sim (env : Env) (cfg : Config) (a b : State) (h : Sim a b) :
    Sim (step env cfg a) (step (unchunked env) cfg b) := by
  obtain ⟨p, rfl, hp⟩ := h
  rcases hp with heq | ⟨r1, r2, h1, h2, hr⟩ | ⟨r1, r2, h1, h2, hr⟩
  · rw [← heq, setPc_self]
    by_cases hd : a.pc = Loc.dialing
    · exact step_dialing_sim env cfg a hd
    · rw [step_unchunked env cfg a hd]
      exact Sim.refl _
  · rw [h2, step_unchunked env cfg _ (by simp [setPc])]
    exact step_sessionTop_sim env cfg a r1 r2 h1 hr
  · rw [h2, step_unchunked env cfg _ (by simp [setPc])]
    exact step_reading_sim env cfg a r1 r2 h1 hr

theorem run_sim (env : Env) (cfg : Config) (n : Nat) : ∀ a b : State, Sim a b →
    Sim (run env cfg n a) (run (unchunked env) cfg n b) := by
  induction n with
  | zero => intro a b h; exact h
  | succ n ih => intro a b h; exact ih _ _ (step_sim env cfg a b h)

/-- C6: the monitor run over connections that deliver their streams in any
chunks and the monitor run over the same connections delivering each stream in
one chunk have, after every number of steps, performed the same actions (the
same records written to the same files and echoed, in the same order) and
hold the same directory and variables; and the first `ReadString` on a stream
returns the same result however the stream is cut. -/
theorem chunk_boundaries_do_not_change_log (env : Env) (cfg : Config) (d : Dir) (n : Nat) :
    (runTelnetMonitor (unchunked env) cfg d n).events =
        (runTelnetMonitor env cfg d n).events ∧
      writesOf (runTelnetMonitor (unchunked env) cfg d n).events =
        writesOf (runTelnetMonitor env cfg d n).events ∧
      echoesOf (runTelnetMonitor (unchunked env) cfg d n).events =
        echoesOf (runTelnetMonitor env cfg d n).events ∧
      (runTelnetMonitor (unchunked env) cfg d n).dir = (runTelnetMonitor env cfg d n).dir ∧
      (runTelnetMonitor (unchunked env) cfg d n).logFile =
        (runTelnetMonitor env cfg d n).logFile ∧
      Loc.Equiv (runTelnetMonitor env cfg d n).pc (runTelnetMonitor (unchunked env) cfg d n).pc ∧
      (∀ (chunks : List GoString) (err : ReadErr),
        (readString { buf := [], chunks := chunks, err := err }).1 =
          (readString { buf := [], chunks := [chunks.flatten], err := err }).1) := by
  have hstart : start (unchunked env) cfg d = start env cfg d := rfl
  have hsim : Sim (runTelnetMonitor env cfg d n) (runTelnetMonitor (unchunked env) cfg d n) := by
    unfold runTelnetMonitor
    rw [hstart]
    exact run_sim env cfg n _ _ (Sim.refl _)
  obtain ⟨hev, hdir, hlf, _⟩ := Sim.fields _ _ hsim
  refine ⟨hev, by rw [hev], by rw [hev], hdir, hlf, ?_, ?_⟩
  · obtain ⟨p, hb, hp⟩ := hsim
    rw [hb]
    exact hp
  · intro chunks err
    have s1 := readString_spec { buf := [], chunks := chunks, err := err }
    have s2 := readString_spec { buf := [], chunks := [chunks.flatten], err := err }
    have hc : ({ buf := [], chunks := [chunks.flatten], err := err } : Reader).content =
        ({ buf := [], chunks := chunks, err := err } : Reader).content := by
      simp [Reader.content]
    rw [hc] at s2
    cases hs : splitLF ({ buf := [], chunks := chunks, err := err } : Reader).content with
    | none =>
      simp only [hs] at s1 s2
      rw [s1, s2]
    | some q =>
      obtain ⟨l, r⟩ := q
      simp only [hs] at s1 s2
      obtain ⟨rd1, e1, _⟩ := s1
      obtain ⟨rd2, e2, _⟩ := s2
      rw [e1, e2]

/-! ## What a session logs (C10) -/

theorem segments_of_splitLF_none (s : GoString) (h : splitLF s = none) : segments s = [] := by
  induction s with
  | nil => rfl
  | cons c cs ih =>
    by_cases hc : c = '\n'
    · simp [splitLF, hc] at h
    · simp only [splitLF, hc, if_false] at h
      cases hs : splitLF cs with
      | some p => simp [hs] at h
      | none => simp [segments, hc, ih hs]

theorem segments_of_splitLF_some (s l r : GoString) (h : splitLF s = some (l, r)) :
    segments s = l :: segments r := by
  induction s generalizing l r with
  | nil => simp [splitLF] at h
  | cons c cs ih =>
    by_cases hc : c = '\n'
    · simp only [splitLF, hc, if_true, Option.some.injEq, Prod.mk.injEq] at h
      simp [segments, hc, ← h.1, ← h.2]
    · simp only [splitLF, hc, if_false] at h
      cases hs : splitLF cs with
      | none => simp [hs] at h
      | some p =>
        obtain ⟨l1, r1⟩ := p
        simp only [hs, Option.some.injEq, Prod.mk.injEq] at h
        simp [segments, hc, ih l1 r1 hs, ← h.1, ← h.2]

theorem splitLF_of_segments_nil (s : GoString) (h : segments s = []) : splitLF s = none := by
  cases hs : splitLF s with
  | none => rfl
  | some p =>
    obtain ⟨l, r⟩ := p
    rw [segments_of_splitLF_some s l r hs] at h
    exact absurd h (by simp)

theorem splitLF_of_segments_cons (s l : GoString) (ls : List GoString)
    (h : segments s = l :: ls) : ∃ r, splitLF s = some (l, r) ∧ segments r = ls := by
  cases hs : splitLF s with
  | none =>
    rw [segments_of_splitLF_none s hs] at h
    exact absurd h (by simp)
  | some p =>
    obtain ⟨l1, r⟩ := p
    rw [segments_of_splitLF_some s l1 r hs] at h
    simp only [List.cons.injEq] at h
    exact ⟨r, by rw [h.1], h.2⟩

/-- The segments are the stream cut after each line feed, less the bytes that
follow the last line feed. -/
theorem segments_spec (s : GoString) :
    (∃ tail, s = (segments s).flatten ++ tail ∧ '\n' ∉ tail) ∧
      (segments s).length = s.count '\n' ∧
      (∀ seg ∈ segments s, ∃ t, seg = t ++ ['\n'] ∧ '\n' ∉ t) := by
  induction s with
  | nil => exact ⟨⟨[], by simp [segments], by simp⟩, by simp [segments], by simp [segments]⟩
  | cons c cs ih =>
    obtain ⟨⟨tail, htail, hnt⟩, hlen, hseg⟩ := ih
    by_cases hc : c = '\n'
    · refine ⟨⟨tail, ?_, hnt⟩, ?_, ?_⟩
      · simp only [segments, hc, if_true, List.flatten_cons, List.singleton_append,
          List.cons_append]
        rw [List.nil_append, ← htail]
      · simp [segments, hc, hlen]
      · intro seg hmem
        simp only [segments, hc, if_true, List.mem_cons] at hmem
        rcases hmem with h | h
        · exact ⟨[], by simp [h], by simp⟩
        · exact hseg seg h
    · have hc2 : ¬ ('\n' = c) := fun h => hc h.symm
      cases hs : segments cs with
      | nil =>
        rw [hs] at htail hlen
        simp only [List.flatten_nil, List.nil_append] at htail
        refine ⟨⟨c :: tail, ?_, ?_⟩, ?_, ?_⟩
        · simp only [segments, hc, if_false, hs, List.flatten_nil, List.nil_append]
          rw [htail]
        · simp only [List.mem_cons, not_or]
          exact ⟨hc2, hnt⟩
        · simp only [segments, hc, if_false, hs, List.length_nil]
          rw [List.count_cons_of_ne hc2]
          simpa using hlen
        · simp [segments, hc, hs]
      | cons l ls =>
        rw [hs] at htail hlen hseg
        refine ⟨⟨tail, ?_, hnt⟩, ?_, ?_⟩
        · simp only [segments, hc, if_false, hs, List.flatten_cons, List.cons_append]
          rw [htail]
          simp
        · simp only [segments, hc, if_false, hs]
          rw [List.count_cons_of_ne hc2]
          simpa using hlen
        · intro seg hmem
          simp only [segments, hc, if_false, hs, List.mem_cons] at hmem
          rcases hmem with h | h
          · obtain ⟨t, ht, hnt2⟩ := hseg l (by simp)
            refine ⟨c :: t, by simp [h, ht], ?_⟩
            simp only [List.mem_cons, not_or]
            exact ⟨hc2, hnt2⟩
          · exact hseg seg (by simp [h])

theorem writesOf_append (a b : List Event) : writesOf (a ++ b) = writesOf a ++ writesOf b := by
  induction a with
  | nil => rfl
  | cons e es ih => cases e <;> simp [writesOf, ih]

theorem echoesOf_append (a b : List Event) : echoesOf (a ++ b) = echoesOf a ++ echoesOf b := by
  induction a with
  | nil => rfl
  | cons e es ih => cases e <;> simp [echoesOf, ih]

theorem createIfMissing_events (env : Env) (name : GoString) (s : State) :
    (createIfMissing env name s).events = s.events ∧
      (createIfMissing env name s).opens = s.opens ∧
      (createIfMissing env name s).polls = s.polls := by
  unfold createIfMissing
  split <;> exact ⟨rfl, rfl, rfl⟩

theorem openLog_ok_events (env : Env) (cfg : Config) (s : State)
    (hopen : env.openErr s.opens = false) :
    ∃ (s2 : State) (h : Handle), openLog env cfg s = .ok s2 ∧ s2.logFile = some h ∧
      s2.events = (closeLog s).events ++ [Event.openFile h] ∧
      s2.polls = s.polls ∧ s2.opens = s.opens + 1 := by
  obtain ⟨_, _, hco, _, _, hcp, _⟩ := closeLog_fields s
  have hopen2 : env.openErr (closeLog s).opens = false := by rw [hco]; exact hopen
  have hc := createIfMissing_events env (logFileName cfg.dir (env.now (closeLog s).ticks)).base
    { closeLog s with ticks := (closeLog s).ticks + 1 }
  cases hof : openFile env cfg s with
  | error sp =>
    exfalso
    unfold openFile at hof
    simp [hopen2] at hof
  | ok s1 =>
    have hof2 := hof
    unfold openFile at hof
    simp only [hopen2, Bool.false_eq_true, if_false, Except.ok.injEq] at hof
    refine ⟨sweep env cfg s1,
      { id := (closeLog s).opens, name := logFileName cfg.dir (env.now (closeLog s).ticks) },
      ?_, ?_, ?_, ?_, ?_⟩
    · unfold openLog
      rw [hof2]
    · rw [← hof]
      rfl
    · rw [← hof]
      simp only [sweep]
      rw [hc.1]
    · rw [← hof]
      simp only [sweep]
      rw [hc.2.2]
      exact hcp
    · rw [← hof]
      simp only [sweep]
      rw [hc.2.1]
      simp only [hco]

/-- Without a failing OpenFile, logging a line succeeds and appends one echo
and one write of the record, after the close and open of a rotation if any. -/
theorem logLine_ok (env : Env) (cfg : Config) (line : GoString) (s : State) (h : Handle)
    (hopen : ∀ k, s.opens ≤ k → env.openErr k = false) (hlf : s.logFile = some h) :
    ∃ (t : State) (h1 : Handle) (mid : List Event),
      logLine env cfg line s = .ok t ∧ t.logFile = some h1 ∧
      t.events = s.events ++ mid ++
        [Event.echo (logRecord (env.now s.ticks) line),
         Event.write h1 (logRecord (env.now s.ticks) line)] ∧
      writesOf mid = [] ∧ echoesOf mid = [] ∧ t.polls = s.polls ∧ s.opens ≤ t.opens := by
  by_cases hd : (env.now s.ticks).Day ≠ s.currentDay
  · obtain ⟨s2, h1, hok, hlf2, hev2, hp2, ho2⟩ := openLog_ok_events env cfg
      { s with ticks := s.ticks + 1, currentDay := (env.now s.ticks).Day }
      (hopen s.opens (Nat.le_refl _))
    have hcl : (closeLog { s with ticks := s.ticks + 1, currentDay := (env.now s.ticks).Day }).events
        = s.events ++ [Event.closeFile h] := by
      simp [closeLog, hlf]
    rw [hcl] at hev2
    have hw := writeLog_events env (logRecord (env.now s.ticks) line)
      { s2 with events := s2.events ++ [Event.echo (logRecord (env.now s.ticks) line)] } h1 hlf2
    have hwf := writeLog_counters env (logRecord (env.now s.ticks) line)
      { s2 with events := s2.events ++ [Event.echo (logRecord (env.now s.ticks) line)] }
    refine ⟨_, h1, [Event.closeFile h, Event.openFile h1], ?_, hw.2, ?_, rfl, rfl, ?_, ?_⟩
    · unfold logLine
      simp only [hd, if_true, ne_eq, not_false_eq_true, hok]
    · rw [hw.1, hev2]
      simp
    · rw [hwf.1]
      exact hp2
    · rw [hwf.2]
      show s.opens ≤ s2.opens
      rw [ho2]
      exact Nat.le_succ _
  · have hw := writeLog_events env (logRecord (env.now s.ticks) line)
      { s with ticks := s.ticks + 1,
               events := s.events ++ [Event.echo (logRecord (env.now s.ticks) line)] } h hlf
    have hwf := writeLog_counters env (logRecord (env.now s.ticks) line)
      { s with ticks := s.ticks + 1,
               events := s.events ++ [Event.echo (logRecord (env.now s.ticks) line)] }
    refine ⟨_, h, [], ?_, hw.2, ?_, rfl, rfl, ?_, ?_⟩
    · unfold logLine
      simp only [hd, if_false]
    · rw [hw.1]
      simp
    · rw [hwf.1]
    · rw [hwf.2]

theorem run_add_two (env : Env) (cfg : Config) (n : Nat) (s : State) :
    run env cfg (n + 2) s = run env cfg n (step env cfg (step env cfg s)) := rfl

theorem step_sessionTop_go (env : Env) (cfg : Config) (s : State) (rd : Reader)
    (hpc : s.pc = Loc.sessionTop rd) (hd : env.done s.polls = false) :
    step env cfg s = { s with polls := s.polls + 1, pc := Loc.reading rd } := by
  unfold step
  simp [hpc, hd]

theorem step_reading_fail (env : Env) (cfg : Config) (s : State) (rd rd1 : Reader)
    (rest : GoString) (e : ReadErr)
    (hpc : s.pc = Loc.reading rd) (hr : readString rd = (.fail rest e, rd1)) :
    (step env cfg s).pc = Loc.sessionBackoff ∧
      (step env cfg s).events = s.events ++
        [Event.status (if e = .other then .readError else .disconnected), Event.connClose] := by
  unfold step
  simp [hpc, hr]

theorem step_reading_line (env : Env) (cfg : Config) (s t : State) (rd rd1 : Reader)
    (l : GoString) (hpc : s.pc = Loc.reading rd) (hr : readString rd = (.line l, rd1))
    (hl : logLine env cfg l s = .ok t) :
    step env cfg s = { t with pc := Loc.sessionTop rd1 } := by
  unfold step
  simp [hpc, hr, hl]

/-- A session in which no poll observes the cancellation signal set and no
OpenFile fails reads and logs the terminated segments of its stream, one
record each, and ends in the backoff after the read that fails. -/
theorem session_run (env : Env) (cfg : Config) (segs : List GoString) :
    ∀ (s : State) (rd : Reader) (h : Handle), s.pc = Loc.sessionTop rd →
      s.logFile = some h → segments rd.content = segs →
      (∀ i, i ≤ segs.length → env.done (s.polls + i) = false) →
      (∀ k, s.opens ≤ k → env.openErr k = false) →
      ∃ stamps : List Time, stamps.length = segs.length ∧
        (run env cfg (2 * segs.length + 2) s).pc = Loc.sessionBackoff ∧
        (writesOf (run env cfg (2 * segs.length + 2) s).events).map Prod.snd =
          (writesOf s.events).map Prod.snd ++ List.zipWith logRecord stamps segs ∧
        echoesOf (run env cfg (2 * segs.length + 2) s).events =
          echoesOf s.events ++ List.zipWith logRecord stamps segs := by
  induction segs with
  | nil =>
    intro s rd h hpc hlf hseg hdone _
    have hsp := splitLF_of_segments_nil _ hseg
    have hrs := readString_spec rd
    simp only [hsp] at hrs
    have h1 := step_sessionTop_go env cfg s rd hpc (hdone 0 (Nat.le_refl _))
    have h2 := step_reading_fail env cfg { s with polls := s.polls + 1, pc := Loc.reading rd }
      rd _ _ _ rfl hrs
    refine ⟨[], rfl, ?_, ?_, ?_⟩
    · show (run env cfg (0 + 2) s).pc = _
      rw [run_add_two, h1]
      exact h2.1
    · show (writesOf (run env cfg (0 + 2) s).events).map Prod.snd = _
      rw [run_add_two, h1]
      simp only [run]
      rw [h2.2, writesOf_append]
      simp [writesOf]
    · show echoesOf (run env cfg (0 + 2) s).events = _
      rw [run_add_two, h1]
      simp only [run]
      rw [h2.2, echoesOf_append]
      simp [echoesOf]
  | cons l ls ih =>
    intro s rd h hpc hlf hseg hdone hopen
    obtain ⟨r, hsp, hls⟩ := splitLF_of_segments_cons _ l ls hseg
    have hrs := readString_spec rd
    simp only [hsp] at hrs
    obtain ⟨rd1, hread, _, hcont⟩ := hrs
    have h1 := step_sessionTop_go env cfg s rd hpc (hdone 0 (Nat.zero_le _))
    obtain ⟨t, h1', mid, hok, hlft, hevt, hwm, hem, htp, hto⟩ := logLine_ok env cfg l
      { s with polls := s.polls + 1, pc := Loc.reading rd } h hopen hlf
    have h2 := step_reading_line env cfg { s with polls := s.polls + 1, pc := Loc.reading rd }
      t rd rd1 l rfl hread hok
    have hdone2 : ∀ i, i ≤ ls.length → env.done (t.polls + i) = false := by
      intro i hi
      have := hdone (i + 1) (by simp only [List.length_cons]; omega)
      rw [htp]
      show env.done (s.polls + 1 + i) = false
      rw [Nat.add_assoc, Nat.add_comm 1 i]
      exact this
    have hopen2 : ∀ k, t.opens ≤ k → env.openErr k = false := by
      intro k hk
      exact hopen k (Nat.le_trans hto hk)
    obtain ⟨stamps, hlen, hpcf, hwf, hef⟩ := ih { t with pc := Loc.sessionTop rd1 } rd1 h1' rfl
      hlft (by rw [hcont]; exact hls) hdone2 hopen2
    have hn : 2 * (l :: ls).length + 2 = (2 * ls.length + 2) + 2 := by
      simp only [List.length_cons]
      ring
    rw [hn, run_add_two, h1, h2]
    refine ⟨env.now s.ticks :: stamps, by simp [hlen], hpcf, ?_, ?_⟩
    · rw [hwf]
      show (writesOf t.events).map Prod.snd ++ _ = _
      rw [hevt, writesOf_append, writesOf_append, hwm]
      simp [writesOf]
    · rw [hef]
      show echoesOf t.events ++ _ = _
      rw [hevt, echoesOf_append, echoesOf_append, hem]
      simp [echoesOf]

/-- C10: in a session during which no poll observes the cancellation signal
set and no OpenFile fails, run from the head of the read loop until the read
that fails, the records written (and echoed) are, in order, one record for
each segment of the stream that ends in a line feed; their number is the
number of line feeds received, and the bytes after the last line feed appear
in no record. -/
theorem session_logs_terminated_segments (env : Env) (cfg : Config) (s : State)
    (chunks : List GoString) (err : ReadErr) (h : Handle)
    (hpc : s.pc = Loc.sessionTop { buf := [], chunks := chunks, err := err })
    (hlf : s.logFile = some h)
    (hdone : ∀ i, i ≤ chunks.flatten.count '\n' → env.done (s.polls + i) = false)
    (hopen : ∀ k, s.opens ≤ k → env.openErr k = false) :
    ∃ (stamps : List Time) (tail : GoString),
      chunks.flatten = (segments chunks.flatten).flatten ++ tail ∧ '\n' ∉ tail ∧
      (∀ seg ∈ segments chunks.flatten, ∃ t, seg = t ++ ['\n'] ∧ '\n' ∉ t) ∧
      stamps.length = (segments chunks.flatten).length ∧
      (run env cfg (2 * chunks.flatten.count '\n' + 2) s).pc = Loc.sessionBackoff ∧
      (writesOf (run env cfg (2 * chunks.flatten.count '\n' + 2) s).events).map Prod.snd =
        (writesOf s.events).map Prod.snd ++
          List.zipWith logRecord stamps (segments chunks.flatten) ∧
      echoesOf (run env cfg (2 * chunks.flatten.count '\n' + 2) s).events =
        echoesOf s.events ++ List.zipWith logRecord stamps (segments chunks.flatten) ∧
      (writesOf (run env cfg (2 * chunks.flatten.count '\n' + 2) s).events).length =
        (writesOf s.events).length + chunks.flatten.count '\n' := by
  obtain ⟨⟨tail, htail, hnt⟩, hlen, hseg⟩ := segments_spec chunks.flatten
  have hcont : ({ buf := [], chunks := chunks, err := err } : Reader).content = chunks.flatten := by
    simp [Reader.content]
  obtain ⟨stamps, hsl, hpcf, hwf, hef⟩ := session_run env cfg
    (segments chunks.flatten) s _ h hpc hlf (by rw [hcont]) (by rw [hlen]; exact hdone) hopen
  rw [hlen] at hpcf hwf hef
  refine ⟨stamps, tail, htail, hnt, hseg, hsl, hpcf, hwf, hef, ?_⟩
  have := congrArg List.length hwf
  simp only [List.length_map, List.length_append, List.length_zipWith, hsl, min_self] at this
  rw [this, hlen]

/-- A stream cut inside its lines and ending without a line feed, an instance
of C10: two records, `hello` and `world`; the bytes `rest` are dropped. -/
theorem session_logs_terminated_segments_witness :
    (runTelnetMonitor cutLinesEnv sampleCfg [] 2).pc =
        Loc.sessionTop
          { buf := [], chunks := ["he".toList, "llo\r".toList, "\nwor".toList, "ld\nrest".toList],
            err := ReadErr.other } ∧
      (runTelnetMonitor cutLinesEnv sampleCfg [] 2).logFile =
        some { id := 0, name := logFileName "logs".toList (jan15 1) } ∧
      (∀ i, i ≤ ["he".toList, "llo\r".toList, "\nwor".toList, "ld\nrest".toList].flatten.count '\n' →
        cutLinesEnv.done ((runTelnetMonitor cutLinesEnv sampleCfg [] 2).polls + i) = false) ∧
      (∀ k, (runTelnetMonitor cutLinesEnv sampleCfg [] 2).opens ≤ k →
        cutLinesEnv.openErr k = false) ∧
      segments ["he".toList, "llo\r".toList, "\nwor".toList, "ld\nrest".toList].flatten =
        ["hello\r\n".toList, "world\n".toList] ∧
      (writesOf (runTelnetMonitor cutLinesEnv sampleCfg [] 8).events).map Prod.snd =
        ["[2024-01-15 10:00:00] hello\n".toList, "[2024-02-15 10:00:00] world\n".toList] ∧
      (writesOf (run cutLinesEnv sampleCfg
        (2 * ["he".toList, "llo\r".toList, "\nwor".toList, "ld\nrest".toList].flatten.count '\n' + 2)
        (runTelnetMonitor cutLinesEnv sampleCfg [] 2)).events).length =
        (writesOf (runTelnetMonitor cutLinesEnv sampleCfg [] 2).events).length +
          ["he".toList, "llo\r".toList, "\nwor".toList, "ld\nrest".toList].flatten.count '\n' :=
  ⟨by decide, by decide, fun _ _ => rfl, fun _ _ => rfl, by decide, by decide,
    by
      obtain ⟨_, _, _, _, _, _, _, _, _, hcount⟩ :=
        session_logs_terminated_segments cutLinesEnv sampleCfg
          (runTelnetMonitor cutLinesEnv sampleCfg [] 2)
          ["he".toList, "llo\r".toList, "\nwor".toList, "ld\nrest".toList] .other
          { id := 0, name := logFileName "logs".toList (jan15 1) }
          (by decide) (by decide) (fun _ _ => rfl) (fun _ _ => rfl)
      exact hcount⟩

end RunLogMonitor
